import Mathlib

/-!
Verification of the anachro-forth core: compiler, serialization codec and
stepwise interpreter, as a shallow embedding of the Rust sources
(src/core/src/lib.rs, builtins.rs, compiler.rs, std_rt.rs, nostd_rt.rs,
ser_de.rs, and the earlier iteration src/src/lib.rs).

Modelling conventions:
* i32 values are Lean Int with explicit wrapping (wrap32) where the source
  wraps; checked arithmetic is modelled by explicit range tests.
* usize cursor arithmetic is modelled with Nat (the cursor checked_add
  overflow at usize::MAX is unreachable in this model).
* Heap stacks (StdVecStack) are unbounded, as in the std runtime; the
  heapless fixed-capacity variants (HVecStack, String of OUTBUF_SZ) are
  modelled with the same unbounded containers, i.e. capacities are
  idealized as never exceeded.
* Rust panics (assert!, unwrap, todo!) are modelled as an explicit
  outcome (IRes.pan and similar, or Option none for pure helpers).
-/

/-- Error enum from src/core/src/lib.rs. -/
inductive Error where
  | OutputFormat
  | Input
  | DataStackUnderflow
  | StackOverflow
  | DataStackEmpty
  | RetStackEmpty
  | FlowStackEmpty
  | BadMath
  | MissingIfPair
  | MissingElsePair
  | MissingLoopPair
  | MissingDoPair
  | InternalError
deriving DecidableEq, Repr

/-- Tags for the builtin functions of src/core/src/builtins.rs that the
compiler and the std or nostd builtin registries reference.  A
RuntimeWord.verb carries such a tag in place of the Rust function
pointer; biRun dispatches the tag to the modelled function. -/
inductive BI where
  | emit
  | dot
  | cr
  | rpush
  | rpop
  | eq
  | lt
  | gt
  | dup
  | add
  | privLoop
deriving DecidableEq, Repr

/-- StdVecStack from src/core/src/std_rt.rs: a growable stack of i32 with
a configured error value.  The nostd HVecStack of src/core/src/nostd_rt.rs
is identical except for a fixed capacity (idealized here). -/
structure StdVecStack where
  data : List Int
  err : Error
deriving DecidableEq, Repr

/-- Stack::push for StdVecStack (Vec::push, infallible). -/
def StdVecStack.push (s : StdVecStack) (v : Int) : StdVecStack :=
  { s with data := v :: s.data }

/-- Stack::pop for StdVecStack: the source is
self.data.pop().ok_or(Error::DataStackUnderflow) — note the configured
err field is ignored. -/
def StdVecStack.pop (s : StdVecStack) : Except Error (Int × StdVecStack) :=
  match s.data with
  | [] => .error .DataStackUnderflow
  | v :: rest => .ok (v, { s with data := rest })

/-- Stack::last for StdVecStack: self.data.last().ok_or(Error::InternalError)
(the source comments: TODO Wrong error!). -/
def StdVecStack.lastE (s : StdVecStack) : Except Error Int :=
  match s.data with
  | [] => .error .InternalError
  | v :: _ => .ok v

/-- RuntimeWord from src/core/src/lib.rs, with VerbSeqInner inlined into
the verbSeq constructor (tok and idx fields).  The builtin token type is
fixed to BI; the sequence token type stays a parameter (String for the
std runtime, Nat for the nostd runtime). -/
inductive RuntimeWord (α : Type) where
  | literalVal (v : Int)
  | verb (b : BI)
  | verbSeq (tok : α) (idx : Nat)
  | uncondRelativeJump (offset : Int)
  | condRelativeJump (offset : Int) (jump_on : Bool)
deriving DecidableEq, Repr

/-- Runtime state from src/core/src/lib.rs: data stack, return stack,
flow stack of RuntimeWords and the output sink. -/
structure RState (α : Type) where
  data_stk : StdVecStack
  ret_stk : StdVecStack
  flow_stk : List (RuntimeWord α)
  cur_output : String
deriving DecidableEq, Repr

/-- Signed 32-bit wrapping (i32::wrapping_add is wrap32 of the exact sum). -/
def wrap32 (z : Int) : Int := (z + 2 ^ 31) % 2 ^ 32 - 2 ^ 31

/-- i32::checked_add(1): some (z+1) unless it exceeds i32::MAX. -/
def checkedAdd1 (z : Int) : Option Int :=
  if z + 1 ≤ 2 ^ 31 - 1 then some (z + 1) else none

/-- char::from_u32 validity test: Unicode scalar values. -/
def isScalar (n : Nat) : Bool :=
  (n < 0xD800 || (0xE000 ≤ n && n ≤ 0x10FFFF))

/-- bi_emit character computation: the popped i32 cast to u32, converted
with char::from_u32, interrobang on failure. -/
def emitChar (v : Int) : Char :=
  let n := (v % 2 ^ 32).toNat
  if isScalar n then Char.ofNat n else '‽'

/-- bi_emit from src/core/src/builtins.rs. -/
def bi_emit {α : Type} (s : RState α) : Except Error (RState α) :=
  match s.data_stk.pop with
  | .error e => .error e
  | .ok (v, d) =>
    .ok { s with data_stk := d, cur_output := s.cur_output.push (emitChar v) }

/-- bi_pop from src/core/src/builtins.rs (registered as the word "."):
writeln! of the popped value. -/
def bi_pop {α : Type} (s : RState α) : Except Error (RState α) :=
  match s.data_stk.pop with
  | .error e => .error e
  | .ok (v, d) =>
    .ok { s with data_stk := d, cur_output := s.cur_output ++ toString v ++ "\n" }

/-- bi_cr from src/core/src/builtins.rs. -/
def bi_cr {α : Type} (s : RState α) : Except Error (RState α) :=
  .ok { s with cur_output := s.cur_output ++ "\n" }

/-- bi_retstk_push from src/core/src/builtins.rs (the word >r). -/
def bi_retstk_push {α : Type} (s : RState α) : Except Error (RState α) :=
  match s.data_stk.pop with
  | .error e => .error e
  | .ok (v, d) => .ok { s with data_stk := d, ret_stk := s.ret_stk.push v }

/-- bi_retstk_pop from src/core/src/builtins.rs (the word r>). -/
def bi_retstk_pop {α : Type} (s : RState α) : Except Error (RState α) :=
  match s.ret_stk.pop with
  | .error e => .error e
  | .ok (v, r) => .ok { s with ret_stk := r, data_stk := s.data_stk.push v }

/-- bi_eq from src/core/src/builtins.rs. -/
def bi_eq {α : Type} (s : RState α) : Except Error (RState α) :=
  match s.data_stk.pop with
  | .error e => .error e
  | .ok (val1, d1) =>
    match d1.pop with
    | .error e => .error e
    | .ok (val2, d2) =>
      .ok { s with data_stk := d2.push (if val1 = val2 then -1 else 0) }

/-- bi_lt from src/core/src/builtins.rs: val2 is popped first (the top). -/
def bi_lt {α : Type} (s : RState α) : Except Error (RState α) :=
  match s.data_stk.pop with
  | .error e => .error e
  | .ok (val2, d1) =>
    match d1.pop with
    | .error e => .error e
    | .ok (val1, d2) =>
      .ok { s with data_stk := d2.push (if val1 < val2 then -1 else 0) }

/-- bi_gt from src/core/src/builtins.rs. -/
def bi_gt {α : Type} (s : RState α) : Except Error (RState α) :=
  match s.data_stk.pop with
  | .error e => .error e
  | .ok (val2, d1) =>
    match d1.pop with
    | .error e => .error e
    | .ok (val1, d2) =>
      .ok { s with data_stk := d2.push (if val1 > val2 then -1 else 0) }

/-- bi_dup from src/core/src/builtins.rs. -/
def bi_dup {α : Type} (s : RState α) : Except Error (RState α) :=
  match s.data_stk.lastE with
  | .error e => .error e
  | .ok v => .ok { s with data_stk := s.data_stk.push v }

/-- bi_add from src/core/src/builtins.rs: wrapping_add of the two popped
values. -/
def bi_add {α : Type} (s : RState α) : Except Error (RState α) :=
  match s.data_stk.pop with
  | .error e => .error e
  | .ok (val1, d1) =>
    match d1.pop with
    | .error e => .error e
    | .ok (val2, d2) =>
      .ok { s with data_stk := d2.push (wrap32 (val1 + val2)) }

/-- bi_priv_loop from src/core/src/builtins.rs: pop limit then index from
the return stack, checked-increment the index (BadMath on i32 overflow),
push -1 (done) or push 0 and restore the pair (continue). -/
def bi_priv_loop {α : Type} (s : RState α) : Except Error (RState α) :=
  match s.ret_stk.pop with
  | .error e => .error e
  | .ok (lmt, r1) =>
    match r1.pop with
    | .error e => .error e
    | .ok (idx, r2) =>
      match checkedAdd1 idx with
      | none => .error .BadMath
      | some idx2 =>
        if idx2 = lmt then
          .ok { s with ret_stk := r2, data_stk := s.data_stk.push (-1) }
        else
          .ok { s with ret_stk := (r2.push idx2).push lmt,
                       data_stk := s.data_stk.push 0 }

/-- Dispatch a builtin tag to its modelled function (the role of the
function pointer inside BuiltinToken). -/
def biRun {α : Type} : BI → RState α → Except Error (RState α)
  | .emit => bi_emit
  | .dot => bi_pop
  | .cr => bi_cr
  | .rpush => bi_retstk_push
  | .rpop => bi_retstk_pop
  | .eq => bi_eq
  | .lt => bi_lt
  | .gt => bi_gt
  | .dup => bi_dup
  | .add => bi_add
  | .privLoop => bi_priv_loop

/-- Result of one iteration of the inner loop of Runtime::step_inner
(src/core/src/lib.rs): continue looping, yield a builtin or sequence
reference, done, error, or a Rust panic (failed assert). -/
inductive IRes (α : Type) where
  | done
  | single (b : BI)
  | ref (tok : α) (idx : Nat)
  | cont
  | err (e : Error)
  | pan
deriving DecidableEq, Repr

/-- Jump application at the bottom of the step_inner loop: the jump word
frame was just popped, the new top frame must be a VerbSeq (as_seq_inner,
Error::InternalError otherwise; Error::FlowStackEmpty if the flow stack
is empty).  A negative offset asserts abs <= idx (panic otherwise); a
non-negative offset asserts it is non-zero (cursor checked_add overflow
at usize::MAX is unreachable with Nat cursors). -/
def applyJump {α : Type} (off : Int) (s : RState α) : IRes α × RState α :=
  match s.flow_stk with
  | [] => (.err .FlowStackEmpty, s)
  | w :: rest =>
    match w with
    | .verbSeq t i =>
      if off < 0 then
        let a := off.natAbs
        if a ≤ i then
          (.cont, { s with flow_stk := .verbSeq t (i - a) :: rest })
        else (.pan, s)
      else
        let a := off.toNat
        if a = 0 then (.pan, s)
        else (.cont, { s with flow_stk := .verbSeq t (i + a) :: rest })
    | _ => (.err .InternalError, s)

/-- One iteration of the loop inside Runtime::step_inner
(src/core/src/lib.rs lines 209-292): read the top frame, execute
LiteralVal / UncondRelativeJump / CondRelativeJump inline, yield Verb
(popping the frame) or VerbSeq (incrementing its cursor in place). -/
def innerStep {α : Type} (s : RState α) : IRes α × RState α :=
  match s.flow_stk with
  | [] => (.done, s)
  | w :: rest =>
    match w with
    | .literalVal v =>
      (.cont, { s with data_stk := s.data_stk.push v, flow_stk := rest })
    | .verb b => (.single b, { s with flow_stk := rest })
    | .verbSeq t i =>
      (.ref t i, { s with flow_stk := .verbSeq t (i + 1) :: rest })
    | .uncondRelativeJump off => applyJump off { s with flow_stk := rest }
    | .condRelativeJump off jump_on =>
      match s.data_stk.pop with
      | .error e => (.err e, s)
      | .ok (topvar, d) =>
        let s1 := { s with data_stk := d, flow_stk := rest }
        if Bool.xor (decide (topvar = 0)) jump_on then applyJump off s1
        else (.cont, s1)

/-- Result of Runtime::step_inner as a whole. -/
inductive SOut (α : Type) where
  | done
  | single (b : BI)
  | ref (tok : α) (idx : Nat)
  | err (e : Error)
  | pan
  | gas
deriving DecidableEq, Repr

/-- Runtime::step_inner: run the inner loop until it yields, completes,
errors or panics.  The fuel bounds the number of inert instructions
executed inline (the source loops unboundedly; gas is returned when the
fuel runs out). -/
def stepInner {α : Type} : Nat → RState α → SOut α × RState α
  | 0, s => (.gas, s)
  | n + 1, s =>
    match innerStep s with
    | (.cont, s1) => stepInner n s1
    | (.done, s1) => (.done, s1)
    | (.single b, s1) => (.single b, s1)
    | (.ref t i, s1) => (.ref t i, s1)
    | (.err e, s1) => (.err e, s1)
    | (.pan, s1) => (.pan, s1)

/-- The while-pop-is-ok loop of Runtime::step applied to a value stack. -/
def popAllV : StdVecStack → StdVecStack
  | ⟨[], e⟩ => ⟨[], e⟩
  | ⟨_ :: rest, e⟩ => popAllV ⟨rest, e⟩

/-- The while-pop-is-ok loop of Runtime::step applied to the flow stack. -/
def popAllF {α : Type} : List (RuntimeWord α) → List (RuntimeWord α)
  | [] => []
  | _ :: rest => popAllF rest

/-- Error recovery in Runtime::step: drain the flow, data and return
stacks. -/
def clearState {α : Type} (s : RState α) : RState α :=
  { s with flow_stk := popAllF s.flow_stk,
           data_stk := popAllV s.data_stk,
           ret_stk := popAllV s.ret_stk }

/-- Runtime::step from src/core/src/lib.rs lines 197-207: forward the
result of step_inner, except that on error all three stacks are drained
before the error is surfaced. -/
def step {α : Type} (fuel : Nat) (s : RState α) : SOut α × RState α :=
  match stepInner fuel s with
  | (.err e, s1) => (.err e, clearState s1)
  | r => r

/-- Observable outcome of a host dispatch loop (run_blocking in
src/core/src/nostd_rt.rs, or the test loops of src/core/src/lib.rs). -/
inductive ROut where
  | done
  | err (e : Error)
  | pan
  | gas
deriving DecidableEq, Repr

/-- Host dispatch loop (NoStdContext::run_blocking and the identical std
test loop): repeatedly step; on a Single yield run the builtin
immediately (unwrap: an error from the builtin is a panic); on a Ref
yield resolve the word via look and feed it back with provide_seq_tok
(which asserts a pushed VerbSeq has cursor 0, and pops the caller frame
when the lookup is past the end of the sequence).  The step-internal
inert-instruction loop is flattened into this loop: each fuel unit is
one innerStep iteration, and an error from step_inner drains the stacks
exactly as Runtime::step does. -/
def runLoop {α : Type} (look : α → Nat → Option (RuntimeWord α)) :
    Nat → RState α → ROut × RState α
  | 0, s => (.gas, s)
  | n + 1, s =>
    match innerStep s with
    | (.cont, s1) => runLoop look n s1
    | (.done, s1) => (.done, s1)
    | (.single b, s1) =>
      match biRun b s1 with
      | .ok s2 => runLoop look n s2
      | .error _ => (.pan, s1)
    | (.ref t i, s1) =>
      match look t i with
      | some w =>
        match w with
        | .verbSeq t2 j =>
          if j = 0 then runLoop look n { s1 with flow_stk := .verbSeq t2 j :: s1.flow_stk }
          else (.pan, s1)
        | w2 => runLoop look n { s1 with flow_stk := w2 :: s1.flow_stk }
      | none =>
        match s1.flow_stk with
        | [] => (.pan, s1)
        | _ :: rest => runLoop look n { s1 with flow_stk := rest }
    | (.err e, s1) => (.err e, clearState s1)
    | (.pan, s1) => (.pan, s1)

/-- Sequence-token renaming on a RuntimeWord (used to relate the
name-keyed std runtime to the index-keyed nostd runtime). -/
def mapWord {α β : Type} (m : α → β) : RuntimeWord α → RuntimeWord β
  | .literalVal v => .literalVal v
  | .verb b => .verb b
  | .verbSeq t i => .verbSeq (m t) i
  | .uncondRelativeJump off => .uncondRelativeJump off
  | .condRelativeJump off j => .condRelativeJump off j

/-- Sequence-token renaming on a runtime state. -/
def mapState {α β : Type} (m : α → β) (s : RState α) : RState β :=
  ⟨s.data_stk, s.ret_stk, s.flow_stk.map (mapWord m), s.cur_output⟩

/-- Sequence-token renaming on an inner-step result. -/
def mapIRes {α β : Type} (m : α → β) : IRes α → IRes β
  | .done => .done
  | .single b => .single b
  | .ref t i => .ref (m t) i
  | .cont => .cont
  | .err e => .err e
  | .pan => .pan

/-- Fresh runtime state (new_runtime of std_rt.rs and nostd_rt.rs: the
data stack is configured with DataStackEmpty, the return stack with
RetStackEmpty), with a given flow stack and initial data stack. -/
def initState {α : Type} (flow : List (RuntimeWord α)) (ds : List Int) : RState α :=
  ⟨⟨ds, .DataStackEmpty⟩, ⟨[], .RetStackEmpty⟩, flow, ""⟩

/-- Association-list lookup (first match), modelling BTreeMap::get; the
maps themselves are modelled as association lists in iteration order. -/
def aFind {β : Type} : List (String × β) → String → Option β
  | [], _ => none
  | (k, v) :: rest, key => if k = key then some v else aFind rest key

/-- Association-list insert, modelling BTreeMap::insert: replace the
binding if the key is present, otherwise add it. -/
def aInsert {β : Type} : List (String × β) → String → β → List (String × β)
  | [], key, v => [(key, v)]
  | (k, w) :: rest, key, v =>
    if k = key then (k, v) :: rest else (k, w) :: aInsert rest key v

/-- NamedStdRuntimeWord from src/core/src/std_rt.rs: a runtime word
together with its display name (the name is what the serializer interns
for Verb words). -/
structure NW where
  name : String
  word : RuntimeWord String
deriving DecidableEq, Repr

/-- Dict from src/core/src/compiler.rs: builtin registry, definition map
(each StdFuncSeq modelled as its list of named words), anonymous
counter. -/
structure Dict where
  bis : List (String × BI)
  data : List (String × List NW)
  shame_idx : Nat
deriving DecidableEq, Repr

/-- parse_num from src/core/src/compiler.rs (and the identical function
in src/src/lib.rs): str::parse::\<i32\> on an optional sign followed by
decimal digits, none outside the i32 range. -/
def parseNum (s : String) : Option Int :=
  let cs := s.data
  let signDigits : Bool × List Char :=
    match cs with
    | '-' :: rest => (true, rest)
    | '+' :: rest => (false, rest)
    | _ => (false, cs)
  let neg := signDigits.1
  let digits := signDigits.2
  if digits.isEmpty || !(digits.all Char.isDigit) then none
  else
    let n : Nat := digits.foldl (fun acc c => acc * 10 + (c.toNat - 48)) 0
    let v : Int := if neg then -(n : Int) else (n : Int)
    if -(2 ^ 31) ≤ v ∧ v ≤ 2 ^ 31 - 1 then some v else none

/-- ASCII model of str::to_lowercase (all tokens of interest are ASCII). -/
def lcChar (c : Char) : Char :=
  if 'A' ≤ c ∧ c ≤ 'Z' then Char.ofNat (c.toNat + 32) else c

/-- Lowercase a token. -/
def lcString (s : String) : String := ⟨s.data.map lcChar⟩

/-- Chunk AST from src/core/src/compiler.rs. -/
inductive Chunk where
  | ifThen (if_body : List Chunk)
  | ifElseThen (if_body : List Chunk) (else_body : List Chunk)
  | doLoop (do_body : List Chunk)
  | tok (t : String)

mutual

/-- muncher from src/core/src/compiler.rs: recursive-descent chunker over
the token deque.  Fueled (the source recursion consumes the deque); none
models the todo!() panics on unterminated constructs; length + 1 fuel is
always enough. -/
def munchAll : Nat → List String → Option (List Chunk)
  | 0, _ => none
  | _ + 1, [] => some []
  | f + 1, t :: rest =>
    if t = "do" then
      match munchDo f rest [] with
      | none => none
      | some (c, rem) =>
        match munchAll f rem with
        | none => none
        | some cs => some (c :: cs)
    else if t = "if" then
      match munchIf f rest [] with
      | none => none
      | some (c, rem) =>
        match munchAll f rem with
        | none => none
        | some cs => some (c :: cs)
    else
      match munchAll f rest with
      | none => none
      | some cs => some (.tok t :: cs)

/-- munch_do from src/core/src/compiler.rs: collect chunks until the
matching loop token; running out of tokens is the todo!() panic. -/
def munchDo : Nat → List String → List Chunk → Option (Chunk × List String)
  | 0, _, _ => none
  | _ + 1, [], _ => none
  | f + 1, t :: rest, acc =>
    if t = "do" then
      match munchDo f rest [] with
      | none => none
      | some (c, rem) => munchDo f rem (acc ++ [c])
    else if t = "if" then
      match munchIf f rest [] with
      | none => none
      | some (c, rem) => munchDo f rem (acc ++ [c])
    else if t = "loop" then some (.doLoop acc, rest)
    else munchDo f rest (acc ++ [.tok t])

/-- munch_if from src/core/src/compiler.rs: collect chunks until then
(IfThen) or else (hand off to munch_else); exhaustion is the todo!()
panic. -/
def munchIf : Nat → List String → List Chunk → Option (Chunk × List String)
  | 0, _, _ => none
  | _ + 1, [], _ => none
  | f + 1, t :: rest, acc =>
    if t = "do" then
      match munchDo f rest [] with
      | none => none
      | some (c, rem) => munchIf f rem (acc ++ [c])
    else if t = "if" then
      match munchIf f rest [] with
      | none => none
      | some (c, rem) => munchIf f rem (acc ++ [c])
    else if t = "then" then some (.ifThen acc, rest)
    else if t = "else" then munchElse f rest acc []
    else munchIf f rest (acc ++ [.tok t])

/-- munch_else from src/core/src/compiler.rs: collect the else body until
then; exhaustion is the todo!() panic. -/
def munchElse : Nat → List String → List Chunk → List Chunk →
    Option (Chunk × List String)
  | 0, _, _, _ => none
  | _ + 1, [], _, _ => none
  | f + 1, t :: rest, if_body, acc =>
    if t = "do" then
      match munchDo f rest [] with
      | none => none
      | some (c, rem) => munchElse f rem if_body (acc ++ [c])
    else if t = "if" then
      match munchIf f rest [] with
      | none => none
      | some (c, rem) => munchElse f rem if_body (acc ++ [c])
    else if t = "then" then some (.ifElseThen if_body acc, rest)
    else munchElse f rest if_body (acc ++ [.tok t])

end

mutual

/-- Chunk::to_named_rt_words from src/core/src/compiler.rs: lower one
chunk to named runtime words.  none models the panic on an unresolvable
token.  The dict argument is read-only in the source despite the mut
borrow. -/
def lowerChunk (d : Dict) : Chunk → Option (List NW)
  | .ifThen if_body =>
    match lowerChunks d if_body with
    | none => none
    | some conv =>
      some (⟨"CRJ", .condRelativeJump (conv.length : Int) false⟩ :: conv)
  | .ifElseThen if_body else_body =>
    match lowerChunks d if_body with
    | none => none
    | some if_conv =>
      match lowerChunks d else_body with
      | none => none
      | some else_conv =>
        let if_conv2 := if_conv ++
          [⟨"UCRJ", .uncondRelativeJump (else_conv.length : Int)⟩]
        some ((⟨"CRJ", .condRelativeJump (if_conv2.length : Int) false⟩ ::
          if_conv2) ++ else_conv)
  | .doLoop do_body =>
    match lowerChunks d do_body with
    | none => none
    | some conv =>
      let conv2 := conv ++ [⟨"PRIV_LOOP", .verb .privLoop⟩]
      let len := conv2.length
      some ([⟨">r", .verb .rpush⟩, ⟨">r", .verb .rpush⟩] ++ conv2 ++
        [⟨"CRJ", .condRelativeJump (-1 * (len : Int) - 1) false⟩])
  | .tok t =>
    match aFind d.bis t with
    | some bi => some [⟨t, .verb bi⟩]
    | none =>
      if (aFind d.data t).isSome then some [⟨t, .verbSeq t 0⟩]
      else
        match parseNum t with
        | some num => some [⟨"LIT(" ++ toString num ++ ")", .literalVal num⟩]
        | none => none

/-- Flattened lowering of a chunk list (the map + flatten in
Context::compile). -/
def lowerChunks (d : Dict) : List Chunk → Option (List NW)
  | [] => some []
  | c :: cs =>
    match lowerChunk d c with
    | none => none
    | some a =>
      match lowerChunks d cs with
      | none => none
      | some b => some (a ++ b)

end

/-- Context::compile from src/core/src/compiler.rs: lowercase the tokens,
munch them into chunks, lower the chunks. -/
def compileCore (d : Dict) (data : List String) : Option (List NW) :=
  let low := data.map lcString
  match munchAll (low.length + 1) low with
  | none => none
  | some chunks => lowerChunks d chunks

/-- Context from src/core/src/compiler.rs: a dictionary and a std
runtime. -/
structure CoreCtx where
  dict : Dict
  rt : RState String
deriving Repr

/-- Context::evaluate from src/core/src/compiler.rs: a line of the shape
colon name body semicolon defines name; any other non-empty line is
compiled under an anonymous __N name, inserted, and pushed for
execution.  none models the panics (assert on short definitions, compile
unwrap). -/
def evaluateCore (c : CoreCtx) (data : List String) : Option CoreCtx :=
  match data.head?, data.getLast? with
  | some f, some l =>
    if f = ":" ∧ l = ";" then
      if data.length < 3 then none
      else
        let name := lcString (data.getD 1 "")
        let relevant := (data.drop 2).take (data.length - 3)
        match compileCore c.dict relevant with
        | none => none
        | some compiled =>
          some { c with dict :=
            { c.dict with data := aInsert c.dict.data name compiled } }
    else
      if data.isEmpty then some c
      else
        let name := "__" ++ toString c.dict.shame_idx
        match compileCore c.dict data with
        | none => none
        | some comp =>
          some { dict := { c.dict with
                            data := aInsert c.dict.data name comp,
                            shame_idx := c.dict.shame_idx + 1 },
                 rt := { c.rt with
                          flow_stk := .verbSeq name 0 :: c.rt.flow_stk } }
  | _, _ => some c

/-- std_builtins from src/core/src/std_rt.rs (same names and functions as
nostd_builtins in src/core/src/nostd_rt.rs). -/
def stdBuiltins : List (String × BI) :=
  [("emit", .emit), (".", .dot), ("cr", .cr), (">r", .rpush), ("r>", .rpop),
   ("=", .eq), ("<", .lt), (">", .gt), ("dup", .dup), ("+", .add)]

/-- Context::with_builtins applied to std_builtins, paired with
new_runtime: the starting std context. -/
def coreCtx0 : CoreCtx :=
  { dict := { bis := stdBuiltins, data := [], shame_idx := 0 },
    rt := initState [] [] }

/-- Host-side sequence lookup of the std test loop in
src/core/src/lib.rs: find the definition by name, then its word at the
requested cursor. -/
def lookStd (dd : List (String × List NW)) (tok : String) (idx : Nat) :
    Option (RuntimeWord String) :=
  match aFind dd tok with
  | none => none
  | some ws => (ws.get? idx).map NW.word

/-- Sequence lookup of NoStdContext::run_blocking: index into the
deserialized sequence table. -/
def lookNS (seqs : List (List (RuntimeWord Nat))) (tok : Nat) (idx : Nat) :
    Option (RuntimeWord Nat) :=
  match seqs.get? tok with
  | none => none
  | some ws => ws.get? idx

/-- SerWord from src/core/src/ser_de.rs (the u16 intern indices are
modelled as Nat; the source try_into().unwrap() panics above 65535,
unreachable for the dictionaries considered here). -/
inductive SerWord where
  | literalVal (v : Int)
  | verb (i : Nat)
  | verbSeq (i : Nat)
  | uncondRelativeJump (offset : Int)
  | condRelativeJump (offset : Int) (jump_on : Bool)
deriving DecidableEq, Repr

/-- SerDict from src/core/src/ser_de.rs. -/
structure SerDict where
  data : List (List SerWord)
  data_map : Option (List String)
  bis : List String
deriving DecidableEq, Repr

/-- SerContext from src/core/src/std_rt.rs: the two intern tables. -/
structure SerCtx where
  bis : List String
  seqs : List String
deriving DecidableEq, Repr

/-- Effectful map over Option (collect the results, none if any element
maps to none), written with direct recursion. -/
def optMapM {β γ : Type} (f : β → Option γ) : List β → Option (List γ)
  | [] => some []
  | x :: xs =>
    match f x with
    | none => none
    | some y =>
      match optMapM f xs with
      | none => none
      | some r => some (y :: r)

/-- Position of the first occurrence of a string in a list
(Vec::iter().position with string equality). -/
def posOf : List String → String → Option Nat
  | [], _ => none
  | x :: xs, w => if x = w then some 0 else (posOf xs w).map (· + 1)

/-- SerContext::intern_bis: position of the name if present, else append
and return the new index. -/
def internBis (c : SerCtx) (w : String) : Nat × SerCtx :=
  match posOf c.bis w with
  | some pos => (pos, c)
  | none => (c.bis.length, { c with bis := c.bis ++ [w] })

/-- SerContext::intern_seq. -/
def internSeq (c : SerCtx) (w : String) : Nat × SerCtx :=
  match posOf c.seqs w with
  | some pos => (pos, c)
  | none => (c.seqs.length, { c with seqs := c.seqs ++ [w] })

/-- SerContext::encode_rtw: encode one named word, interning the Verb
name or the VerbSeq token (the cursor is not serialized). -/
def encodeRtw (c : SerCtx) (w : NW) : SerWord × SerCtx :=
  match w.word with
  | .literalVal lit => (.literalVal lit, c)
  | .verb _ =>
    let p := internBis c w.name
    (.verb p.1, p.2)
  | .verbSeq t _ =>
    let p := internSeq c t
    (.verbSeq p.1, p.2)
  | .uncondRelativeJump off => (.uncondRelativeJump off, c)
  | .condRelativeJump off j => (.condRelativeJump off j, c)

/-- Encode a word list left to right, threading the intern context. -/
def encList (c : SerCtx) : List NW → List SerWord × SerCtx
  | [] => ([], c)
  | w :: ws =>
    let p := encodeRtw c w
    let q := encList p.2 ws
    (p.1 :: q.1, q.2)

/-- ser_srw from src/core/src/std_rt.rs: encode the members of a
definition in order, then intern the definition name itself (the source
comment: ensure that the currently encoded word makes it into the list
of interned words). -/
def serSrw (c : SerCtx) (name : String) (ws : List NW) :
    List SerWord × SerCtx :=
  let p := encList c ws
  (p.1, (internSeq p.2 name).2)

/-- Modelled from the spec words for claim C8 only: a variant of ser_srw
that interns the definition own name BEFORE any member word is emitted,
to be compared against the source order. -/
def serSrwSpec (c : SerCtx) (name : String) (ws : List NW) :
    List SerWord × SerCtx :=
  let c1 := (internSeq c name).2
  encList c1 ws

/-- The per-definition fold of Dict::serialize, collecting the name to
serial-words map in iteration order. -/
def serFold (enc : SerCtx → String → List NW → List SerWord × SerCtx) :
    List (String × List NW) → List (String × List SerWord) × SerCtx →
    List (String × List SerWord) × SerCtx
  | [], acc => acc
  | (n, ws) :: rest, (out, c) =>
    let p := enc c n ws
    serFold enc rest (out ++ [(n, p.1)], p.2)

/-- Dict::serialize from src/core/src/compiler.rs: encode every
definition, then materialize data and data_map in interned order (the
out.get(word).unwrap() panic for an interned name without a definition
is modelled as none). -/
def serializeD (d : Dict) : Option SerDict :=
  let p := serFold serSrw d.data ([], ⟨[], []⟩)
  match optMapM (aFind p.1) p.2.seqs with
  | none => none
  | some data => some ⟨data, some p.2.seqs, p.2.bis⟩

/-- Modelled from the spec words for claim C8 only: Dict::serialize with
the spec-claimed intern order (own name before members). -/
def serializeSpecOrd (d : Dict) : Option SerDict :=
  let p := serFold serSrwSpec d.data ([], ⟨[], []⟩)
  match optMapM (aFind p.1) p.2.seqs with
  | none => none
  | some data => some ⟨data, some p.2.seqs, p.2.bis⟩

/-- nostd_builtins from src/core/src/nostd_rt.rs: the loader registry of
the embedded runtime (note it does not contain PRIV_LOOP). -/
def nostdBuiltins : List (String × BI) := stdBuiltins

/-- Translation of one SerWord in NoStdContext::from_ser_dict, given the
builtin lookup table; none models the index panic. -/
def convWord (lut : List BI) : SerWord → Option (RuntimeWord Nat)
  | .literalVal v => some (.literalVal v)
  | .verb i =>
    match lut.get? i with
    | none => none
    | some b => some (.verb b)
  | .verbSeq i => some (.verbSeq i 0)
  | .uncondRelativeJump off => some (.uncondRelativeJump off)
  | .condRelativeJump off j => some (.condRelativeJump off j)

/-- NoStdContext::from_ser_dict from src/core/src/nostd_rt.rs: build the
builtin lookup table (the find(..).unwrap() panic on a name missing from
nostd_builtins is modelled as none), then translate every sequence. -/
def fromSerDict (sd : SerDict) : Option (List (List (RuntimeWord Nat))) :=
  match optMapM (aFind nostdBuiltins) sd.bis with
  | none => none
  | some lut => optMapM (fun seq => optMapM (convWord lut) seq) sd.data

/-- Index of a name in an interned name list (List::position, out of
range when absent). -/
def serIndexL (dm : List String) (name : String) : Nat :=
  (posOf dm name).getD dm.length

/-- Index of an entry name in the serialized data_map. -/
def serIndex (sd : SerDict) (name : String) : Nat :=
  serIndexL (sd.data_map.getD []) name

/-- The sequence table NoStdContext::from_ser_dict reconstructs, written
directly against the source dictionary: definition j of the serialized
artifact decodes to the words of the definition named data_map[j], with
every sequence token replaced by its intern index. -/
def decodeSeqs (dd : List (String × List NW)) (seqs : List String) :
    List (List (RuntimeWord Nat)) :=
  seqs.map (fun nm => ((aFind dd nm).getD []).map
    (fun nw => mapWord (serIndexL seqs) nw.word))

/-- Translation of one SerWord in Context::load_ser_dict
(src/core/src/compiler.rs lines 75-102); none models the unwrap panics
on out-of-range indices or unregistered builtins. -/
def loadConvWord (d : Dict) (sd : SerDict) (dm : List String) :
    SerWord → Option NW
  | .literalVal v => some ⟨"LIT(" ++ toString v ++ ")", .literalVal v⟩
  | .verb i =>
    match sd.bis.get? i with
    | none => none
    | some txt =>
      match aFind d.bis txt with
      | none => none
      | some bi => some ⟨txt, .verb bi⟩
  | .verbSeq i =>
    match dm.get? i with
    | none => none
    | some txt => some ⟨txt, .verbSeq txt 0⟩
  | .uncondRelativeJump off =>
    some ⟨"UCRJ(" ++ toString off ++ ")", .uncondRelativeJump off⟩
  | .condRelativeJump off j =>
    some ⟨"CRJ(" ++ toString off ++ ")", .condRelativeJump off j⟩

/-- Context::load_ser_dict from src/core/src/compiler.rs: refuse (and
leave the dictionary untouched) when the artifact has no data_map, when
a bis name is not in the registry, or when the data_map and data lengths
differ; otherwise insert every translated definition.  The refusals
print to stderr and return unit in the source; here the unchanged
dictionary is returned.  none models the unwrap panics during
translation. -/
def loadSerDict (d : Dict) (sd : SerDict) : Option Dict :=
  match sd.data_map with
  | none => some d
  | some dm =>
    if !(sd.bis.all (fun bi => (aFind d.bis bi).isSome)) then some d
    else if dm.length ≠ sd.data.length then some d
    else
      let rec go (pairs : List (String × List SerWord)) (acc : Dict) :
          Option Dict :=
        match pairs with
        | [] => some acc
        | (name, word) :: rest =>
          match optMapM (loadConvWord d sd dm) word with
          | none => none
          | some cword =>
            go rest { acc with data := aInsert acc.data name cword }
      go (dm.zip sd.data) d

/-- Outcome of a fallible, possibly panicking computation (Result in the
source; pan models Rust panics). -/
inductive PRes (σ : Type) where
  | ok (v : σ)
  | er (e : Error)
  | pan
deriving Repr

/-- Word from the earlier compiler iteration src/src/lib.rs.  Builtin
function pointers are represented by their registered name. -/
inductive Word2 where
  | literalVal (v : Int)
  | builtin (name : String)
  | compiled (name : String) (data : List Word2)
  | uncondRelativeJump (offset : Int)
  | condRelativeJump (offset : Int) (jump_on : Bool)

/-- Counters threaded through compile in src/src/lib.rs. -/
structure C2St where
  out : List Word2
  ifct : Nat
  elsect : Nat
  thenct : Nat
  doct : Nat
  loopct : Nat

/-- Vec::iter().position over string tokens (returns the index of the
first element satisfying the predicate). -/
def position (p : String → Bool) : List String → Option Nat
  | [] => none
  | x :: xs => if p x then some 0 else (position p xs).map (· + 1)

/-- The backward scan of the loop arm of compile (src/src/lib.rs lines
429-444): walk the reversed prefix; on a do token decrement the count if
possible (otherwise report false for that element); report the first
position at which the count is zero. -/
def loopScan : List String → Nat → Option Nat
  | [], _ => none
  | w :: rest, count =>
    if w = "do" then
      if 1 ≤ count then
        if count - 1 = 0 then some 0
        else (loopScan rest (count - 1)).map (· + 1)
      else (loopScan rest count).map (· + 1)
    else
      if count = 0 then some 0
      else (loopScan rest count).map (· + 1)

/-- Main loop of compile from src/src/lib.rs (the linear index-scan
lowering): revPre is the reversed list of already-visited lowered
tokens, rest the tokens still to visit (the current token at its head,
matching iter().skip(idx)). -/
def compile2Go (dict : List (String × Word2)) :
    List String → List String → C2St → PRes (List Word2)
  | _, [], st =>
    if st.ifct ≠ st.thenct then .pan
    else if st.ifct < st.elsect then .pan
    else .ok st.out
  | revPre, d :: rest, st =>
    if d = "if" then
      match position (fun w => w = "then" || w = "else") (d :: rest) with
      | none => .er .MissingIfPair
      | some off =>
        let tgt := (d :: rest).getD off ""
        if tgt = "then" then
          compile2Go dict (d :: revPre) rest
            { st with
              out := st.out ++ [.condRelativeJump ((off - 1 : Nat) : Int) false],
              ifct := st.ifct + 1 }
        else if tgt = "else" then
          compile2Go dict (d :: revPre) rest
            { st with
              out := st.out ++ [.condRelativeJump (off : Int) false],
              ifct := st.ifct + 1 }
        else .pan
    else if d = "else" then
      match position (fun w => w = "then") (d :: rest) with
      | none => .er .MissingElsePair
      | some off =>
        compile2Go dict (d :: revPre) rest
          { st with
            out := st.out ++ [.uncondRelativeJump ((off : Int) - 1)],
            elsect := st.elsect + 1 }
    else if d = "then" then
      compile2Go dict (d :: revPre) rest { st with thenct := st.thenct + 1 }
    else if d = "do" then
      compile2Go dict (d :: revPre) rest
        { st with out := st.out ++ [.builtin ">r", .builtin ">r"],
                  doct := st.doct + 1 }
    else if d = "loop" then
      let out2 := st.out ++ [.builtin "PRIV_LOOP"]
      if st.doct < st.loopct then .pan
      else
        match loopScan revPre (st.doct - st.loopct) with
        | none => .er .MissingLoopPair
        | some off =>
          compile2Go dict (d :: revPre) rest
            { st with
              out := out2 ++ [.condRelativeJump (-1 * (off : Int) - 2) false],
              loopct := st.loopct + 1 }
    else
      match aFind dict d with
      | some w =>
        compile2Go dict (d :: revPre) rest { st with out := st.out ++ [w] }
      | none =>
        match parseNum d with
        | some num =>
          compile2Go dict (d :: revPre) rest
            { st with out := st.out ++ [.literalVal num] }
        | none => .pan

/-- compile from src/src/lib.rs: lowercase the tokens and run the linear
scan. -/
def compile2 (dict : List (String × Word2)) (data : List String) :
    PRes (List Word2) :=
  compile2Go dict [] (data.map lcString) ⟨[], 0, 0, 0, 0, 0⟩

/-- Context of src/src/lib.rs reduced to the parts evaluate touches: the
dictionary and the flow stack of pushed execution words. -/
structure Ctx2 where
  dict : List (String × Word2)
  flow : List Word2

/-- evaluate from src/src/lib.rs: a colon definition compiles its body
and inserts it under the lowercased name; anything else compiles the
whole line into an anonymous word and pushes it for execution.  Errors
from compile propagate before any mutation, so a failed compile leaves
the context unchanged by construction of the source. -/
def evaluate2 (c : Ctx2) (data : List String) : PRes Unit × Ctx2 :=
  let isDef : Bool :=
    match data.head?, data.getLast? with
    | some f, some l => decide (f = ":") && decide (l = ";")
    | _, _ => false
  if isDef then
    if data.length < 4 then (.pan, c)
    else
      let name := lcString (data.getD 1 "")
      let relevant := (data.drop 2).take (data.length - 3)
      match compile2 c.dict relevant with
      | .ok compiled =>
        (.ok (), { c with dict := aInsert c.dict name (.compiled name compiled) })
      | .er e => (.er e, c)
      | .pan => (.pan, c)
  else
    match compile2 c.dict data with
    | .ok ws => (.ok (), { c with flow := .compiled "_" ws :: c.flow })
    | .er e => (.er e, c)
    | .pan => (.pan, c)

/-- A token of src/src compile that is neither a control word nor
unresolvable: it is in the dictionary or parses as a number.  Such
tokens compile without error or panic. -/
def plain2 (dict : List (String × Word2)) (t : String) : Bool :=
  !(t = "if" || t = "else" || t = "then" || t = "do" || t = "loop") &&
  ((aFind dict t).isSome || (parseNum t).isSome)

/-- Names of the definitions of a dictionary, in iteration order. -/
def keyList (dd : List (String × List NW)) : List String := dd.map Prod.fst

/-- Well-formedness of one stored word: a VerbSeq reference must carry
cursor 0 and point at an existing definition. -/
def wfWordB (dd : List (String × List NW)) (w : NW) : Bool :=
  match w.word with
  | .verbSeq t i => decide (i = 0) && (aFind dd t).isSome
  | _ => true

/-- Well-formed dictionary: every stored sequence reference is resolvable
with cursor 0. -/
def wfDictB (d : Dict) : Bool := d.data.all (fun p => p.2.all (wfWordB d.data))

/-- Coherence of one stored word: a Verb word must carry the name under
which the loader registry (nostd_builtins) provides exactly its
function. -/
def cohWordB (w : NW) : Bool :=
  match w.word with
  | .verb b => decide (aFind nostdBuiltins w.name = some b)
  | _ => true

/-- Coherent dictionary: every builtin reference is reloadable by name. -/
def cohDictB (d : Dict) : Bool := d.data.all (fun p => p.2.all cohWordB)

/-- Both intern tables of one serializer context extend those of
another. -/
def ctxExt (c c2 : SerCtx) : Prop :=
  List.IsPrefix c.bis c2.bis ∧ List.IsPrefix c.seqs c2.seqs

/-- Correspondence between a stored named word and its serialized form,
relative to the final intern tables. -/
def swok (c : SerCtx) (nw : NW) (sw : SerWord) : Prop :=
  match nw.word, sw with
  | .literalVal v, .literalVal v2 => v2 = v
  | .verb _, .verb i => c.bis.get? i = some nw.name
  | .verbSeq t _, .verbSeq i => c.seqs.get? i = some t
  | .uncondRelativeJump o, .uncondRelativeJump o2 => o2 = o
  | .condRelativeJump o j, .condRelativeJump o2 j2 => o2 = o ∧ j2 = j
  | _, _ => False

/-- One table entry x originating from the words of a definition as a
sequence token. -/
def seqTokOf (x : String) (ws : List NW) : Prop :=
  ∃ nw ∈ ws, ∃ t i, nw.word = RuntimeWord.verbSeq t i ∧ x = t

/-- One table entry x originating from the words of a definition as a
verb name. -/
def verbNameOf (x : String) (ws : List NW) : Prop :=
  ∃ nw ∈ ws, ∃ b, nw.word = RuntimeWord.verb b ∧ x = nw.name

/-- Sources of a seqs-table entry inside a dictionary slice. -/
def seqSrc (x : String) (dd : List (String × List NW)) : Prop :=
  ∃ p ∈ dd, x = p.1 ∨ seqTokOf x p.2

/-- Sources of a bis-table entry inside a dictionary slice. -/
def bisSrc (x : String) (dd : List (String × List NW)) : Prop :=
  ∃ p ∈ dd, verbNameOf x p.2

/-- Correspondence between a dictionary entry and its serialized pair,
relative to the final intern tables. -/
def pairOK (f : SerCtx) (entry : String × List NW)
    (pr : String × List SerWord) : Prop :=
  pr.1 = entry.1 ∧ pr.2.length = entry.2.length ∧
  ∀ i nw, entry.2.get? i = some nw →
    ∃ sw, pr.2.get? i = some sw ∧ swok f nw sw

/-- The concrete dictionary used by the C8 counterexample: definition a
calls definition b, iterated in BTreeMap (sorted) order. -/
def dictC8 : Dict :=
  { bis := stdBuiltins,
    data := [("a", [⟨"b", .verbSeq "b" 0⟩]), ("b", [])],
    shame_idx := 0 }

/-- A context evaluating the claim C4 example line, producing the
anonymous definition __0 and pushing it for execution. -/
def ctxC4 : Option CoreCtx :=
  evaluateCore coreCtx0 ["0", "0", "do", "42", "emit", "loop"]

/-- A context evaluating the corresponding named definition for the C1
counterexample: a do loop inside a definition. -/
def ctxC1 : Option CoreCtx :=
  evaluateCore coreCtx0 [":", "test", "0", "0", "do", "42", "emit", "loop", ";"]

/-- Lemma: popAllV drains the stack completely. -/
theorem popAllV_data (st : StdVecStack) : (popAllV st).data = [] := by
  obtain ⟨d, e⟩ := st
  induction d with
  | nil => simp [popAllV]
  | cons v rest ih => simpa [popAllV] using ih

/-- Lemma: popAllF drains the flow stack completely. -/
theorem popAllF_eq_nil {α : Type} (l : List (RuntimeWord α)) : popAllF l = [] := by
  induction l with
  | nil => rfl
  | cons w rest ih => simpa [popAllF] using ih

/-- C10: popping an empty return stack (r>, LOOP_STEP) yields
DataStackUnderflow and never the configured RetStackEmpty, whatever
error value the stack was constructed with: StdVecStack::pop hard-codes
DataStackUnderflow. -/
theorem retstk_pop_ignores_configured_error (e : Error) (ds : List Int)
    (e1 : Error) (fl : List (RuntimeWord String)) (o : String) :
    bi_retstk_pop (α := String) ⟨⟨ds, e1⟩, ⟨[], e⟩, fl, o⟩ =
      .error .DataStackUnderflow ∧
    bi_priv_loop (α := String) ⟨⟨ds, e1⟩, ⟨[], e⟩, fl, o⟩ =
      .error .DataStackUnderflow ∧
    Error.DataStackUnderflow ≠ Error.RetStackEmpty :=
  ⟨rfl, rfl, by decide⟩

/-- C9: the + primitive pushes the wrapped (mod 2^32, signed
representative) sum of its two operands, and LOOP_STEP reports BadMath
instead of wrapping when the counter increment would overflow i32. -/
theorem add_wraps_loop_overflow_errors :
    (∀ (a b : Int) (ds : List Int) (e1 : Error) (r : StdVecStack)
        (fl : List (RuntimeWord String)) (o : String),
      bi_add ⟨⟨a :: b :: ds, e1⟩, r, fl, o⟩ =
        .ok ⟨⟨wrap32 (a + b) :: ds, e1⟩, r, fl, o⟩ ∧
      wrap32 (a + b) % 2 ^ 32 = (a + b) % 2 ^ 32 ∧
      -(2 ^ 31) ≤ wrap32 (a + b) ∧ wrap32 (a + b) < 2 ^ 31) ∧
    (∀ (lmt : Int) (rr ds : List Int) (e1 e2 : Error)
        (fl : List (RuntimeWord String)) (o : String),
      bi_priv_loop ⟨⟨ds, e1⟩, ⟨lmt :: (2 ^ 31 - 1) :: rr, e2⟩, fl, o⟩ =
        .error .BadMath) := by
  constructor
  · intro a b ds e1 r fl o
    refine ⟨rfl, ?_, ?_, ?_⟩ <;> · unfold wrap32; omega
  · intro lmt rr ds e1 e2 fl o
    simp [bi_priv_loop, StdVecStack.pop, checkedAdd1]

/-- C5: executing a CondRelativeJump on top of the flow stack with a
non-empty data stack pops exactly one value and, provided the jump is
applicable (non-zero offset, negative offsets bounded by the enclosing
cursor: the source asserts these), adjusts the enclosing frame cursor by
the offset exactly when (top = 0) xor polarity holds, leaving it
unchanged otherwise. -/
theorem cond_jump_pops_and_adjusts (off : Int) (pol : Bool) (t : String)
    (i : Nat) (rest : List (RuntimeWord String)) (v : Int) (ds : List Int)
    (e1 e2 : Error) (r : List Int) (o : String)
    (hok : Bool.xor (decide (v = 0)) pol = true →
      off ≠ 0 ∧ (off < 0 → off.natAbs ≤ i)) :
    ∃ i2 : Nat,
      innerStep ⟨⟨v :: ds, e1⟩, ⟨r, e2⟩,
          .condRelativeJump off pol :: .verbSeq t i :: rest, o⟩ =
        (.cont, ⟨⟨ds, e1⟩, ⟨r, e2⟩, .verbSeq t i2 :: rest, o⟩) ∧
      ((i2 : Int) =
        if Bool.xor (decide (v = 0)) pol then (i : Int) + off else (i : Int)) := by
  by_cases hj : Bool.xor (decide (v = 0)) pol = true
  · obtain ⟨hnz, hneg⟩ := hok hj
    by_cases hlt : off < 0
    · refine ⟨i - off.natAbs, ?_, ?_⟩
      · simp [innerStep, StdVecStack.pop, hj, applyJump, hlt, hneg hlt]
      · have := hneg hlt
        simp only [hj, if_true]
        omega
    · refine ⟨i + off.toNat, ?_, ?_⟩
      · have hz : off.toNat ≠ 0 := by omega
        simp [innerStep, StdVecStack.pop, hj, applyJump, hlt, hz]
      · simp only [hj, if_true]
        omega
  · refine ⟨i, ?_, ?_⟩
    · simp [innerStep, StdVecStack.pop, hj]
    · simp [hj]

/-- Witness for cond_jump_pops_and_adjusts at a concrete state: top 0,
polarity false, offset 1 from cursor 0. -/
theorem cond_jump_witness :
    ∃ i2 : Nat,
      innerStep ⟨⟨[0], .DataStackEmpty⟩, ⟨[], .RetStackEmpty⟩,
          .condRelativeJump 1 false :: .verbSeq "x" 0 :: [], ""⟩ =
        (.cont, ⟨⟨[], .DataStackEmpty⟩, ⟨[], .RetStackEmpty⟩,
          .verbSeq "x" i2 :: [], ""⟩) ∧
      ((i2 : Int) =
        if Bool.xor (decide ((0 : Int) = 0)) false then (0 : Int) + 1
        else (0 : Int)) :=
  cond_jump_pops_and_adjusts 1 false "x" 0 [] 0 [] .DataStackEmpty
    .RetStackEmpty [] "" (by decide)

/-- C2: whenever step_inner returns an error, Runtime::step drains all
three stacks and surfaces the same error. -/
theorem step_error_atomic_reset {α : Type} (fuel : Nat) (s : RState α)
    (e : Error) (h : (stepInner fuel s).1 = .err e) :
    (step fuel s).1 = .err e ∧
    (step fuel s).2.data_stk.data = [] ∧
    (step fuel s).2.ret_stk.data = [] ∧
    (step fuel s).2.flow_stk = [] := by
  unfold step
  rcases hs : stepInner fuel s with ⟨r, s1⟩
  rw [hs] at h
  simp only at h
  subst h
  simp [clearState, popAllV_data, popAllF_eq_nil]

/-- Witness for step_error_atomic_reset: a conditional jump with an empty
data stack errors with DataStackUnderflow and the state after step has
all three stacks empty. -/
theorem step_error_atomic_reset_witness :
    (step 1 (initState (α := String) [.condRelativeJump 1 false] [])).1 =
      .err .DataStackUnderflow ∧
    (step 1 (initState (α := String) [.condRelativeJump 1 false] [])).2.data_stk.data = [] ∧
    (step 1 (initState (α := String) [.condRelativeJump 1 false] [])).2.ret_stk.data = [] ∧
    (step 1 (initState (α := String) [.condRelativeJump 1 false] [])).2.flow_stk = [] :=
  step_error_atomic_reset 1 (initState [.condRelativeJump 1 false] [])
    .DataStackUnderflow (by decide)

/-- C3 counterexample: lowering DoLoop with the one-word body 42 produces
a trailing conditional jump with offset -3, not -(1+1) = -2 as the claim
states (the lowered body has length 1). -/
theorem doloop_offset_counterexample :
    lowerChunk { bis := stdBuiltins, data := [], shame_idx := 0 }
        (.doLoop [.tok "42"]) =
      some [⟨">r", .verb .rpush⟩, ⟨">r", .verb .rpush⟩,
            ⟨"LIT(42)", .literalVal 42⟩, ⟨"PRIV_LOOP", .verb .privLoop⟩,
            ⟨"CRJ", .condRelativeJump (-3) false⟩] ∧
    (-3 : Int) ≠ -((1 : Int) + 1) := by
  exact ⟨by decide, by decide⟩

/-- C3 amended: the compiler lowers DoLoop into two >r words, the lowered
body, the internal LOOP_STEP primitive, and a trailing conditional jump
with polarity false and offset -(len(lowered body) + 2). -/
theorem doloop_lowering (d : Dict) (body : List Chunk) (ws : List NW)
    (h : lowerChunks d body = some ws) :
    lowerChunk d (.doLoop body) =
      some ([⟨">r", .verb .rpush⟩, ⟨">r", .verb .rpush⟩] ++
        (ws ++ [⟨"PRIV_LOOP", .verb .privLoop⟩]) ++
        [⟨"CRJ", .condRelativeJump (-((ws.length : Int) + 2)) false⟩]) := by
  simp only [lowerChunk, h]
  have : -1 * ((ws ++ [(⟨"PRIV_LOOP", .verb .privLoop⟩ : NW)]).length : Int) - 1 =
      -((ws.length : Int) + 2) := by
    simp [List.length_append]
    ring
  rw [this]

/-- Witness for doloop_lowering at the concrete body 42. -/
theorem doloop_lowering_witness :
    lowerChunk { bis := stdBuiltins, data := [], shame_idx := 0 }
        (.doLoop [.tok "42"]) =
      some ([⟨">r", .verb .rpush⟩, ⟨">r", .verb .rpush⟩] ++
        ([⟨"LIT(42)", .literalVal 42⟩] ++ [⟨"PRIV_LOOP", .verb .privLoop⟩]) ++
        [⟨"CRJ", .condRelativeJump
          (-(([(⟨"LIT(42)", .literalVal 42⟩ : NW)].length : Int) + 2)) false⟩]) :=
  doloop_lowering { bis := stdBuiltins, data := [], shame_idx := 0 }
    [.tok "42"] [⟨"LIT(42)", .literalVal 42⟩] (by decide)

/-- C4 counterexample: compiling and running the claim example line
0 0 do 42 emit loop executes the body: after twelve inner steps the
output sink already holds a star, so the run performs at least one body
iteration rather than zero. -/
theorem loop_equal_bounds_counterexample :
    (ctxC4.map
      (fun c => (runLoop (lookStd c.dict.data) 12 c.rt).2.cur_output)) =
        some "*" ∧
    some "*" ≠ some "" := by
  exact ⟨by decide, by decide⟩

/-- C4 amended: a do loop whose limit equals its starting index executes
its body at least once, not zero times: the loop is post-tested (the
body precedes LOOP_STEP), and LOOP_STEP on an equal pair (v, v) pushes 0
(continue) and restores the incremented pair, as long as the increment
does not overflow.  The concrete run of the example line emits a star
within twelve inner steps. -/
theorem loop_equal_bounds_runs_body :
    ((ctxC4.map
      (fun c => (runLoop (lookStd c.dict.data) 12 c.rt).2.cur_output)) =
        some "*") ∧
    (∀ (v : Int) (rr ds : List Int) (e1 e2 : Error)
        (fl : List (RuntimeWord String)) (o : String),
      v + 1 ≤ 2 ^ 31 - 1 →
      bi_priv_loop ⟨⟨ds, e1⟩, ⟨v :: v :: rr, e2⟩, fl, o⟩ =
        .ok ⟨⟨0 :: ds, e1⟩, ⟨v :: (v + 1) :: rr, e2⟩, fl, o⟩) := by
  constructor
  · decide
  · intro v rr ds e1 e2 fl o hv
    have hne : ¬ (v + 1 = v) := by omega
    simp only [bi_priv_loop, StdVecStack.pop, checkedAdd1, StdVecStack.push]
    rw [if_pos (show v + 1 ≤ 2 ^ 31 - 1 by omega)]
    simp [hne]

/-- Witness for loop_equal_bounds_runs_body at the pair (0, 0). -/
theorem loop_equal_bounds_runs_body_witness :
    bi_priv_loop (α := String)
        ⟨⟨[], .DataStackEmpty⟩, ⟨[0, 0], .RetStackEmpty⟩, [], ""⟩ =
      .ok ⟨⟨[0], .DataStackEmpty⟩, ⟨[0, 1], .RetStackEmpty⟩, [], ""⟩ :=
  loop_equal_bounds_runs_body.2 0 [] [] .DataStackEmpty .RetStackEmpty [] ""
    (by norm_num)

/-- C7: Context::load_ser_dict refuses artifacts naming an unregistered
builtin or whose data_map length disagrees with the data length, leaving
the target dictionary exactly unchanged (no definition inserted). -/
theorem load_rejects_without_mutation (d : Dict) (sd : SerDict)
    (h : (∃ b ∈ sd.bis, aFind d.bis b = none) ∨
         (∃ dm, sd.data_map = some dm ∧ dm.length ≠ sd.data.length)) :
    loadSerDict d sd = some d := by
  unfold loadSerDict
  cases hdm : sd.data_map with
  | none => rfl
  | some dm =>
    by_cases hall : sd.bis.all (fun bi => (aFind d.bis bi).isSome) = true
    · have hlen : dm.length ≠ sd.data.length := by
        rcases h with ⟨b, hb, hbn⟩ | ⟨dm2, hdm2, hlen⟩
        · exfalso
          have := List.all_eq_true.mp hall b hb
          rw [hbn] at this
          simp at this
        · rw [hdm] at hdm2
          injection hdm2 with hq
          subst hq
          exact hlen
      simp [hall, hlen]
    · simp [hall]

/-- Witness for load_rejects_without_mutation: an artifact requiring the
unknown builtin zzz is refused by the starting context. -/
theorem load_rejects_without_mutation_witness :
    loadSerDict coreCtx0.dict ⟨[], some [], ["zzz"]⟩ = some coreCtx0.dict :=
  load_rejects_without_mutation coreCtx0.dict ⟨[], some [], ["zzz"]⟩
    (Or.inl ⟨"zzz", by decide, by decide⟩)

/-- Lemma: position finds nothing when no element satisfies the
predicate. -/
theorem position_eq_none (p : String → Bool) (l : List String)
    (h : ∀ w ∈ l, p w = false) : position p l = none := by
  induction l with
  | nil => rfl
  | cons x xs ih =>
    have hx := h x (List.mem_cons_self x xs)
    simp [position, hx, ih (fun w hw => h w (List.mem_cons_of_mem x hw))]

/-- Lemma: the linear-scan compile loop reports MissingIfPair when it
reaches an if token with no then or else anywhere after it, regardless
of the already-scanned prefix and counters, provided the tokens before
the if are plain (resolvable non-control tokens). -/
theorem compile2Go_missing_if (dict : List (String × Word2))
    (post : List String) (hpost : ∀ w ∈ post, w ≠ "then" ∧ w ≠ "else") :
    ∀ (pre revP : List String) (st : C2St),
    (∀ t ∈ pre, plain2 dict t = true) →
    compile2Go dict revP (pre ++ "if" :: post) st = .er .MissingIfPair := by
  intro pre
  induction pre with
  | nil =>
    intro revP st _
    have hpos : position (fun w => decide (w = "then") || decide (w = "else"))
        ("if" :: post) = none := by
      apply position_eq_none
      intro w hw
      rcases List.mem_cons.mp hw with h | h
      · subst h; decide
      · obtain ⟨h1, h2⟩ := hpost w h
        simp [h1, h2]
    simp [compile2Go, hpos]
  | cons t pre ih =>
    intro revP st hpre
    have hp := hpre t (List.mem_cons_self t pre)
    have hrest : ∀ u ∈ pre, plain2 dict u = true :=
      fun u hu => hpre u (List.mem_cons_of_mem t hu)
    simp only [plain2, Bool.and_eq_true, Bool.not_eq_true',
      Bool.or_eq_false_iff, decide_eq_false_iff_not, Bool.or_eq_true] at hp
    obtain ⟨⟨⟨⟨h1, h2⟩, h3⟩, h4⟩, h5⟩ := hp.1
    have hres := hp.2
    rw [List.cons_append]
    cases hfind : aFind dict t with
    | some w =>
      simp only [compile2Go, if_neg h1, if_neg h2, if_neg h3, if_neg h4,
        if_neg h5, hfind]
      exact ih _ _ hrest
    | none =>
      cases hnum : parseNum t with
      | some num =>
        simp only [compile2Go, if_neg h1, if_neg h2, if_neg h3, if_neg h4,
          if_neg h5, hfind, hnum]
        exact ih _ _ hrest
      | none =>
        exfalso
        rcases hres with hs | hs
        · rw [hfind] at hs; simp at hs
        · rw [hnum] at hs; simp at hs

/-- C6: a definition line whose body contains an if with no then or else
after it (and only plain resolvable tokens before the if) fails to
compile with MissingIfPair, and evaluate leaves the context — in
particular the dictionary — exactly unchanged. -/
theorem missing_if_fails_without_mutation (c : Ctx2) (name : String)
    (toks pre post : List String)
    (hl : toks.map lcString = pre ++ "if" :: post)
    (hpre : ∀ t ∈ pre, plain2 c.dict t = true)
    (hpost : ∀ w ∈ post, w ≠ "then" ∧ w ≠ "else") :
    compile2 c.dict toks = .er .MissingIfPair ∧
    evaluate2 c ([":", name] ++ toks ++ [";"]) = (.er .MissingIfPair, c) := by
  have hcomp : compile2 c.dict toks = .er .MissingIfPair := by
    unfold compile2
    rw [hl]
    exact compile2Go_missing_if c.dict post hpost pre [] _ hpre
  refine ⟨hcomp, ?_⟩
  have hlen : 1 ≤ toks.length := by
    have : toks.length = (toks.map lcString).length := (List.length_map _ _).symm
    rw [hl] at this
    simp at this
    omega
  unfold evaluate2
  have hdata : ([":", name] ++ toks ++ [";"]) =
      ":" :: name :: (toks ++ [";"]) := by simp
  rw [hdata]
  have hlast : (":" :: name :: (toks ++ [";"])).getLast? = some ";" := by
    have : ":" :: name :: (toks ++ [";"]) = (":" :: name :: toks) ++ [";"] := by
      simp
    rw [this]
    exact List.getLast?_concat _
  have hhead : (":" :: name :: (toks ++ [";"])).head? = some ":" := rfl
  rw [hhead, hlast]
  simp only [decide_eq_true_eq, decide_True, Bool.and_self, if_true]
  have hlength : (":" :: name :: (toks ++ [";"])).length = toks.length + 3 := by
    simp
  rw [hlength]
  have hnotlt : ¬ (toks.length + 3 < 4) := by omega
  rw [if_neg hnotlt]
  have hrel : ((":" :: name :: (toks ++ [";"])).drop 2).take
      (toks.length + 3 - 3) = toks := by
    simp only [List.drop_succ_cons, List.drop_zero, Nat.add_sub_cancel]
    exact List.take_left toks [";"]
  rw [hrel]
  rw [hcomp]

/-- Witness for missing_if_fails_without_mutation: the line
colon foo 42 if 43 semicolon on an empty dictionary. -/
theorem missing_if_fails_without_mutation_witness :
    compile2 (Ctx2.mk [] []).dict ["42", "if", "43"] = .er .MissingIfPair ∧
    evaluate2 (Ctx2.mk [] []) ([":", "foo"] ++ ["42", "if", "43"] ++ [";"]) =
      (.er .MissingIfPair, Ctx2.mk [] []) :=
  missing_if_fails_without_mutation (Ctx2.mk [] []) "foo" ["42", "if", "43"]
    ["42"] ["43"] (by decide) (by decide) (by decide)

/-- Lemma: posOf finds nothing exactly on absent strings. -/
theorem posOf_eq_none_iff (l : List String) (w : String) :
    posOf l w = none ↔ w ∉ l := by
  induction l with
  | nil => simp [posOf]
  | cons x xs ih =>
    by_cases hx : x = w
    · subst hx; simp [posOf]
    · simp [posOf, hx, ih, Ne.symm hx]

/-- Lemma: posOf returns an index holding the searched string. -/
theorem posOf_get (l : List String) (w : String) (i : Nat)
    (h : posOf l w = some i) : l.get? i = some w := by
  induction l generalizing i with
  | nil => simp [posOf] at h
  | cons x xs ih =>
    by_cases hx : x = w
    · subst hx
      simp [posOf] at h
      subst h
      rfl
    · simp [posOf, hx] at h
      obtain ⟨j, hj, hji⟩ := h
      subst hji
      simpa using ih j hj

/-- Lemma: in a duplicate-free list the position of a retrieved element
is its index. -/
theorem nodup_get_posOf (l : List String) (hnd : l.Nodup) (i : Nat)
    (w : String) (h : l.get? i = some w) : posOf l w = some i := by
  induction l generalizing i with
  | nil => cases h
  | cons x xs ih =>
    cases i with
    | zero =>
      have hx : x = w := by injection h
      subst hx
      simp [posOf]
    | succ j =>
      have h2 : xs.get? j = some w := h
      have hmem : w ∈ xs := List.get?_mem h2
      have hx : x ≠ w := by
        intro hq
        subst hq
        exact (List.nodup_cons.mp hnd).1 hmem
      simp [posOf, hx, ih (List.nodup_cons.mp hnd).2 j h2]

/-- Lemma: posOf succeeds on members. -/
theorem posOf_isSome_of_mem (l : List String) (w : String) (h : w ∈ l) :
    ∃ i, posOf l w = some i := by
  cases hp : posOf l w with
  | some i => exact ⟨i, rfl⟩
  | none => exact absurd h ((posOf_eq_none_iff l w).mp hp)

/-- Lemma: list prefixes preserve indexed reads. -/
theorem prefix_get {β : Type} (l l2 : List β) (h : List.IsPrefix l l2)
    (i : Nat) (x : β) (hg : l.get? i = some x) : l2.get? i = some x := by
  obtain ⟨t, rfl⟩ := h
  have hi : i < l.length := by
    by_contra hge
    rw [List.get?_eq_none.mpr (Nat.le_of_not_lt hge)] at hg
    cases hg
  rw [List.get?_append hi]
  exact hg

/-- Lemma: ctxExt is reflexive. -/
theorem ctxExt_refl (c : SerCtx) : ctxExt c c :=
  ⟨List.prefix_refl _, List.prefix_refl _⟩

/-- Lemma: ctxExt is transitive. -/
theorem ctxExt_trans {c1 c2 c3 : SerCtx} (h1 : ctxExt c1 c2)
    (h2 : ctxExt c2 c3) : ctxExt c1 c3 :=
  ⟨h1.1.trans h2.1, h1.2.trans h2.2⟩

/-- Lemma: intern_seq returns an index at which the final table holds the
interned name; the tables only grow, bis is untouched, new entries are
the interned name, membership is gained, and freedom from duplicates is
preserved. -/
theorem internSeq_spec (c : SerCtx) (w : String) :
    (internSeq c w).2.seqs.get? (internSeq c w).1 = some w ∧
    ctxExt c (internSeq c w).2 ∧
    (internSeq c w).2.bis = c.bis ∧
    (∀ x ∈ (internSeq c w).2.seqs, x = w ∨ x ∈ c.seqs) ∧
    w ∈ (internSeq c w).2.seqs ∧
    (c.seqs.Nodup → (internSeq c w).2.seqs.Nodup) := by
  unfold internSeq
  cases hp : posOf c.seqs w with
  | some pos =>
    have hg := posOf_get _ _ _ hp
    refine ⟨hg, ctxExt_refl c, rfl, fun x hx => Or.inr hx, List.get?_mem hg,
      fun h => h⟩
  | none =>
    have hnm : w ∉ c.seqs := (posOf_eq_none_iff _ _).mp hp
    refine ⟨?_, ⟨List.prefix_refl _, ⟨[w], rfl⟩⟩, rfl, ?_, ?_, ?_⟩
    · simp [List.get?_concat_length]
    · intro x hx
      rcases List.mem_append.mp hx with h | h
      · exact Or.inr h
      · simp at h
        exact Or.inl h
    · simp
    · intro h
      rw [List.nodup_append]
      refine ⟨h, List.nodup_singleton w, ?_⟩
      intro a ha hb
      simp at hb
      subst hb
      exact hnm ha

/-- Lemma: intern_bis analog of internSeq_spec. -/
theorem internBis_spec (c : SerCtx) (w : String) :
    (internBis c w).2.bis.get? (internBis c w).1 = some w ∧
    ctxExt c (internBis c w).2 ∧
    (internBis c w).2.seqs = c.seqs ∧
    (∀ x ∈ (internBis c w).2.bis, x = w ∨ x ∈ c.bis) := by
  unfold internBis
  cases hp : posOf c.bis w with
  | some pos =>
    have hg := posOf_get _ _ _ hp
    exact ⟨hg, ctxExt_refl c, rfl, fun x hx => Or.inr hx⟩
  | none =>
    refine ⟨?_, ⟨⟨[w], rfl⟩, List.prefix_refl _⟩, rfl, ?_⟩
    · simp [List.get?_concat_length]
    · intro x hx
      rcases List.mem_append.mp hx with h | h
      · exact Or.inr h
      · simp at h
        exact Or.inl h

/-- Lemma: swok is preserved when the intern tables grow. -/
theorem swok_mono {c c2 : SerCtx} (h : ctxExt c c2) (nw : NW) (sw : SerWord)
    (hs : swok c nw sw) : swok c2 nw sw := by
  unfold swok at hs ⊢
  cases hw : nw.word <;> cases hsw : sw <;> rw [hw, hsw] at hs <;>
    simp_all
  · rw [← List.get?_eq_getElem?] at hs
    rw [← List.get?_eq_getElem?]
    exact prefix_get _ _ h.1 _ _ hs
  · rw [← List.get?_eq_getElem?] at hs
    rw [← List.get?_eq_getElem?]
    exact prefix_get _ _ h.2 _ _ hs

/-- Lemma: encode_rtw produces a word related to the source word by swok,
grows the tables, and adds only the verb name or the sequence token. -/
theorem encodeRtw_spec (c : SerCtx) (nw : NW) :
    ctxExt c (encodeRtw c nw).2 ∧
    swok (encodeRtw c nw).2 nw (encodeRtw c nw).1 ∧
    (∀ x ∈ (encodeRtw c nw).2.seqs,
      (∃ t i, nw.word = .verbSeq t i ∧ x = t) ∨ x ∈ c.seqs) ∧
    (∀ x ∈ (encodeRtw c nw).2.bis,
      (∃ b, nw.word = .verb b ∧ x = nw.name) ∨ x ∈ c.bis) ∧
    (c.seqs.Nodup → (encodeRtw c nw).2.seqs.Nodup) := by
  unfold encodeRtw
  cases hw : nw.word with
  | literalVal v => exact ⟨ctxExt_refl c, by simp [swok, hw],
      fun x hx => Or.inr hx, fun x hx => Or.inr hx, fun h => h⟩
  | verb b =>
    obtain ⟨hg, hext, hseqs, hmem⟩ := internBis_spec c nw.name
    refine ⟨hext, ?_, ?_, ?_, ?_⟩
    · simp only [swok, hw]
      exact hg
    · rw [hseqs]
      exact fun x hx => Or.inr hx
    · intro x hx
      rcases hmem x hx with h | h
      · exact Or.inl ⟨b, rfl, h⟩
      · exact Or.inr h
    · rw [hseqs]
      exact fun h => h
  | verbSeq t i =>
    obtain ⟨hg, hext, hbis, hmem, _, hnd⟩ := internSeq_spec c t
    refine ⟨hext, ?_, ?_, ?_, hnd⟩
    · simp only [swok, hw]
      exact hg
    · intro x hx
      rcases hmem x hx with h | h
      · exact Or.inl ⟨t, i, rfl, h⟩
      · exact Or.inr h
    · rw [hbis]
      exact fun x hx => Or.inr hx
  | uncondRelativeJump o => exact ⟨ctxExt_refl c, by simp [swok, hw],
      fun x hx => Or.inr hx, fun x hx => Or.inr hx, fun h => h⟩
  | condRelativeJump o j => exact ⟨ctxExt_refl c, by simp [swok, hw],
      fun x hx => Or.inr hx, fun x hx => Or.inr hx, fun h => h⟩

/-- Lemma: encoding a word list grows the tables, preserves length, and
relates source and serialized words index by index (with respect to the
final tables); new table entries come from the encoded words. -/
theorem encList_spec (ws : List NW) : ∀ (c : SerCtx),
    ctxExt c (encList c ws).2 ∧
    (encList c ws).1.length = ws.length ∧
    (∀ i nw, ws.get? i = some nw →
      ∃ sw, (encList c ws).1.get? i = some sw ∧ swok (encList c ws).2 nw sw) ∧
    (∀ x ∈ (encList c ws).2.seqs,
      (∃ nw ∈ ws, ∃ t i, nw.word = .verbSeq t i ∧ x = t) ∨ x ∈ c.seqs) ∧
    (∀ x ∈ (encList c ws).2.bis,
      (∃ nw ∈ ws, ∃ b, nw.word = .verb b ∧ x = nw.name) ∨ x ∈ c.bis) ∧
    (c.seqs.Nodup → (encList c ws).2.seqs.Nodup) := by
  induction ws with
  | nil =>
    intro c
    exact ⟨ctxExt_refl c, rfl, (fun i nw h => by cases h),
      fun x hx => Or.inr hx, fun x hx => Or.inr hx, fun h => h⟩
  | cons w ws ih =>
    intro c
    obtain ⟨hext1, hswok1, hseq1, hbis1, hnd1⟩ := encodeRtw_spec c w
    obtain ⟨hext2, hlen2, hcorr2, hseq2, hbis2, hnd2⟩ := ih (encodeRtw c w).2
    have henc : encList c (w :: ws) =
        ((encodeRtw c w).1 :: (encList (encodeRtw c w).2 ws).1,
         (encList (encodeRtw c w).2 ws).2) := rfl
    rw [henc]
    refine ⟨ctxExt_trans hext1 hext2, by simpa using hlen2, ?_, ?_, ?_,
      fun h => hnd2 (hnd1 h)⟩
    · intro i nw h
      cases i with
      | zero =>
        have hw : w = nw := by injection h
        subst hw
        exact ⟨(encodeRtw c w).1, rfl, swok_mono hext2 w _ hswok1⟩
      | succ j =>
        obtain ⟨sw, hsw, hok⟩ := hcorr2 j nw h
        exact ⟨sw, hsw, hok⟩
    · intro x hx
      rcases hseq2 x hx with ⟨nw, hnw, t, i, hw, ht⟩ | h
      · exact Or.inl ⟨nw, List.mem_cons_of_mem w hnw, t, i, hw, ht⟩
      · rcases hseq1 x h with ⟨t, i, hw, ht⟩ | h2
        · exact Or.inl ⟨w, List.mem_cons_self w ws, t, i, hw, ht⟩
        · exact Or.inr h2
    · intro x hx
      rcases hbis2 x hx with ⟨nw, hnw, b, hw, ht⟩ | h
      · exact Or.inl ⟨nw, List.mem_cons_of_mem w hnw, b, hw, ht⟩
      · rcases hbis1 x h with ⟨b, hw, ht⟩ | h2
        · exact Or.inl ⟨w, List.mem_cons_self w ws, b, hw, ht⟩
        · exact Or.inr h2

/-- Lemma: ser_srw behaves like encList and additionally interns the
definition name (after the members, per the source). -/
theorem serSrw_spec (c : SerCtx) (name : String) (ws : List NW) :
    ctxExt c (serSrw c name ws).2 ∧
    (serSrw c name ws).1.length = ws.length ∧
    (∀ i nw, ws.get? i = some nw →
      ∃ sw, (serSrw c name ws).1.get? i = some sw ∧
        swok (serSrw c name ws).2 nw sw) ∧
    (∀ x ∈ (serSrw c name ws).2.seqs,
      x = name ∨ (∃ nw ∈ ws, ∃ t i, nw.word = .verbSeq t i ∧ x = t) ∨
        x ∈ c.seqs) ∧
    (∀ x ∈ (serSrw c name ws).2.bis,
      (∃ nw ∈ ws, ∃ b, nw.word = .verb b ∧ x = nw.name) ∨ x ∈ c.bis) ∧
    (c.seqs.Nodup → (serSrw c name ws).2.seqs.Nodup) ∧
    name ∈ (serSrw c name ws).2.seqs := by
  obtain ⟨hext1, hlen1, hcorr1, hseq1, hbis1, hnd1⟩ := encList_spec ws c
  obtain ⟨_, hext2, hbis2, hmem2, hnmem, hnd2⟩ :=
    internSeq_spec (encList c ws).2 name
  have hsrw : serSrw c name ws =
      ((encList c ws).1, (internSeq (encList c ws).2 name).2) := rfl
  rw [hsrw]
  refine ⟨ctxExt_trans hext1 hext2, hlen1, ?_, ?_, ?_, fun h => hnd2 (hnd1 h),
    hnmem⟩
  · intro i nw h
    obtain ⟨sw, hsw, hok⟩ := hcorr1 i nw h
    exact ⟨sw, hsw, swok_mono hext2 nw sw hok⟩
  · intro x hx
    rcases hmem2 x hx with h | h
    · exact Or.inl h
    · rcases hseq1 x h with h2 | h2
      · exact Or.inr (Or.inl h2)
      · exact Or.inr (Or.inr h2)
  · intro x hx
    rw [hbis2] at hx
    exact hbis1 x hx

/-- Lemma: pairOK is preserved when the final tables grow. -/
theorem pairOK_mono {f f2 : SerCtx} (h : ctxExt f f2)
    (entry : String × List NW) (pr : String × List SerWord)
    (hp : pairOK f entry pr) : pairOK f2 entry pr := by
  obtain ⟨h1, h2, h3⟩ := hp
  refine ⟨h1, h2, fun i nw hi => ?_⟩
  obtain ⟨sw, hsw, hok⟩ := h3 i nw hi
  exact ⟨sw, hsw, swok_mono h nw sw hok⟩

/-- Lemma: the serialize fold produces one pair per dictionary entry in
order, relates each to its source entry via the final tables, and the
tables contain only names and tokens drawn from the processed entries
(plus what was already there); the seqs table stays duplicate-free and
contains every processed definition name. -/
theorem serFold_spec (dd : List (String × List NW)) :
    ∀ (out0 : List (String × List SerWord)) (c0 : SerCtx),
    ctxExt c0 (serFold serSrw dd (out0, c0)).2 ∧
    (∃ pairs, (serFold serSrw dd (out0, c0)).1 = out0 ++ pairs ∧
      List.Forall₂ (pairOK (serFold serSrw dd (out0, c0)).2) dd pairs) ∧
    (∀ x ∈ (serFold serSrw dd (out0, c0)).2.seqs,
      seqSrc x dd ∨ x ∈ c0.seqs) ∧
    (∀ x ∈ (serFold serSrw dd (out0, c0)).2.bis,
      bisSrc x dd ∨ x ∈ c0.bis) ∧
    (c0.seqs.Nodup → (serFold serSrw dd (out0, c0)).2.seqs.Nodup) ∧
    (∀ p ∈ dd, p.1 ∈ (serFold serSrw dd (out0, c0)).2.seqs) := by
  induction dd with
  | nil =>
    intro out0 c0
    exact ⟨ctxExt_refl c0, ⟨[], by simp [serFold], List.Forall₂.nil⟩,
      fun x hx => Or.inr hx, fun x hx => Or.inr hx, fun h => h,
      (fun p hp => by cases hp)⟩
  | cons e dd ih =>
    intro out0 c0
    obtain ⟨n, ws⟩ := e
    obtain ⟨hext1, hlen1, hcorr1, hseq1, hbis1, hnd1, hnmem1⟩ :=
      serSrw_spec c0 n ws
    have hfold : serFold serSrw ((n, ws) :: dd) (out0, c0) =
        serFold serSrw dd
          (out0 ++ [(n, (serSrw c0 n ws).1)], (serSrw c0 n ws).2) := rfl
    rw [hfold]
    obtain ⟨hext2, ⟨pairs, hout2, hpairs2⟩, hseq2, hbis2, hnd2, hname2⟩ :=
      ih (out0 ++ [(n, (serSrw c0 n ws).1)]) (serSrw c0 n ws).2
    refine ⟨ctxExt_trans hext1 hext2, ?_, ?_, ?_,
      fun h => hnd2 (hnd1 h), ?_⟩
    · refine ⟨(n, (serSrw c0 n ws).1) :: pairs, by simpa using hout2, ?_⟩
      refine List.Forall₂.cons ?_ hpairs2
      refine pairOK_mono hext2 (n, ws) (n, (serSrw c0 n ws).1) ?_
      exact ⟨rfl, hlen1, hcorr1⟩
    · intro x hx
      rcases hseq2 x hx with h | h
      · obtain ⟨p, hp, hsrc⟩ := h
        exact Or.inl ⟨p, List.mem_cons_of_mem _ hp, hsrc⟩
      · rcases hseq1 x h with h2 | h2 | h2
        · exact Or.inl ⟨(n, ws), List.mem_cons_self _ _, Or.inl h2⟩
        · exact Or.inl ⟨(n, ws), List.mem_cons_self _ _, Or.inr h2⟩
        · exact Or.inr h2
    · intro x hx
      rcases hbis2 x hx with h | h
      · obtain ⟨p, hp, hsrc⟩ := h
        exact Or.inl ⟨p, List.mem_cons_of_mem _ hp, hsrc⟩
      · rcases hbis1 x h with h2 | h2
        · exact Or.inl ⟨(n, ws), List.mem_cons_self _ _, h2⟩
        · exact Or.inr h2
    · intro p hp
      rcases List.mem_cons.mp hp with h | h
      · subst h
        exact hext2.2.subset hnmem1
      · exact hname2 p h

/-- Lemma: aFind succeeds exactly on keys. -/
theorem aFind_isSome_of_mem {β : Type} (l : List (String × β)) (k : String)
    (h : k ∈ l.map Prod.fst) : (aFind l k).isSome := by
  induction l with
  | nil => simp at h
  | cons p rest ih =>
    by_cases hk : p.1 = k
    · obtain ⟨a, b⟩ := p
      simp only [aFind]
      rw [if_pos hk]
      rfl
    · obtain ⟨a, b⟩ := p
      simp only [aFind]
      rw [if_neg hk]
      apply ih
      simp at h
      rcases h with h | h
      · exact absurd h.symm hk
      · simpa using h

/-- Lemma: found keys are members. -/
theorem aFind_mem_keys {β : Type} (l : List (String × β)) (k : String)
    (v : β) (h : aFind l k = some v) : k ∈ l.map Prod.fst := by
  induction l with
  | nil => cases h
  | cons p rest ih =>
    obtain ⟨a, b⟩ := p
    simp only [aFind] at h
    by_cases hk : a = k
    · simp [hk]
    · rw [if_neg hk] at h
      simp [ih h]

/-- Lemma: a Forall₂ of pairOK transports aFind lookups from the
dictionary to the serialized pair list. -/
theorem forall2_aFind {f : SerCtx} :
    ∀ {dd : List (String × List NW)} {pairs : List (String × List SerWord)},
    List.Forall₂ (pairOK f) dd pairs →
    ∀ k ws, aFind dd k = some ws →
      ∃ sws, aFind pairs k = some sws ∧ pairOK f (k, ws) (k, sws) := by
  intro dd pairs h
  induction h with
  | nil => intro k ws h2; cases h2
  | @cons e pr dd2 pairs2 hok _ ih =>
    intro k ws h2
    obtain ⟨he, hp⟩ : e.1 = pr.1 ∧ True := ⟨hok.1.symm, trivial⟩
    obtain ⟨a, wsa⟩ := e
    obtain ⟨b, swsb⟩ := pr
    simp only at he
    subst he
    simp only [aFind] at h2 ⊢
    by_cases hk : a = k
    · rw [if_pos hk] at h2 ⊢
      obtain ⟨_, hlen, hcorr⟩ := hok
      injection h2 with h3
      subst h3
      subst hk
      exact ⟨swsb, rfl, rfl, hlen, hcorr⟩
    · rw [if_neg hk] at h2 ⊢
      exact ih k ws h2

/-- Lemma: optMapM succeeds when every element maps to some. -/
theorem optMapM_isSome {β γ : Type} (f : β → Option γ) :
    ∀ (l : List β), (∀ x ∈ l, (f x).isSome) → ∃ r, optMapM f l = some r := by
  intro l
  induction l with
  | nil => exact fun _ => ⟨[], rfl⟩
  | cons x xs ih =>
    intro h
    obtain ⟨y, hy⟩ := Option.isSome_iff_exists.mp (h x (List.mem_cons_self x xs))
    obtain ⟨r, hr⟩ := ih (fun z hz => h z (List.mem_cons_of_mem x hz))
    exact ⟨y :: r, by simp [optMapM, hy, hr]⟩

/-- Lemma: a successful optMapM preserves length and maps index by
index. -/
theorem optMapM_spec {β γ : Type} (f : β → Option γ) :
    ∀ (l : List β) (r : List γ), optMapM f l = some r →
    r.length = l.length ∧
    ∀ i x, l.get? i = some x → ∃ y, f x = some y ∧ r.get? i = some y := by
  intro l
  induction l with
  | nil =>
    intro r h
    simp only [optMapM, Option.some.injEq] at h
    subst h
    exact ⟨rfl, (fun i x h2 => by cases h2)⟩
  | cons x xs ih =>
    intro r h
    simp only [optMapM] at h
    cases hy : f x with
    | none => rw [hy] at h; cases h
    | some y =>
      rw [hy] at h
      cases hr2 : optMapM f xs with
      | none => rw [hr2] at h; cases h
      | some r2 =>
        rw [hr2] at h
        have hr : y :: r2 = r := by injection h
        subst hr
        obtain ⟨hlen, hcorr⟩ := ih r2 hr2
        refine ⟨by simp [hlen], ?_⟩
        intro i z hz
        cases i with
        | zero =>
          have : x = z := by injection hz
          subst this
          exact ⟨y, hy, rfl⟩
        | succ j => exact hcorr j z hz

/-- Lemma: unfolding well-formedness for a sequence reference. -/
theorem wfWordB_seq {dd : List (String × List NW)} {nw : NW}
    (h : wfWordB dd nw = true) {t : String} {i : Nat}
    (hw : nw.word = .verbSeq t i) : i = 0 ∧ (aFind dd t).isSome := by
  unfold wfWordB at h
  rw [hw] at h
  simpa using h

/-- Lemma: unfolding coherence for a verb reference. -/
theorem cohWordB_verb {nw : NW} (h : cohWordB nw = true) {b : BI}
    (hw : nw.word = .verb b) : aFind nostdBuiltins nw.name = some b := by
  unfold cohWordB at h
  rw [hw] at h
  simpa using h

/-- Lemma: wfDictB gives per-word well-formedness. -/
theorem wfDictB_elim {d : Dict} (h : wfDictB d = true) :
    ∀ p ∈ d.data, ∀ nw ∈ p.2, wfWordB d.data nw = true := by
  intro p hp nw hnw
  unfold wfDictB at h
  exact List.all_eq_true.mp (List.all_eq_true.mp h p hp) nw hnw

/-- Lemma: cohDictB gives per-word coherence. -/
theorem cohDictB_elim {d : Dict} (h : cohDictB d = true) :
    ∀ p ∈ d.data, ∀ nw ∈ p.2, cohWordB nw = true := by
  intro p hp nw hnw
  unfold cohDictB at h
  exact List.all_eq_true.mp (List.all_eq_true.mp h p hp) nw hnw

/-- Lemma: a pairOK Forall₂ preserves the key sequence. -/
theorem forall2_keys {f : SerCtx} :
    ∀ {dd : List (String × List NW)} {prs : List (String × List SerWord)},
    List.Forall₂ (pairOK f) dd prs → prs.map Prod.fst = dd.map Prod.fst := by
  intro dd prs h
  induction h with
  | nil => rfl
  | @cons e pr dd2 prs2 hok _ ih => simp [ih, hok.1]

/-- Lemma: aFind results are members. -/
theorem aFind_some_mem {β : Type} (l : List (String × β)) (k : String)
    (v : β) (h : aFind l k = some v) : (k, v) ∈ l := by
  induction l with
  | nil => cases h
  | cons p rest ih =>
    obtain ⟨a, b⟩ := p
    simp only [aFind] at h
    by_cases hk : a = k
    · rw [if_pos hk] at h
      subst hk
      have : b = v := by injection h
      subst this
      exact List.mem_cons_self _ _
    · rw [if_neg hk] at h
      exact List.mem_cons_of_mem _ (ih h)

/-- Lemma: right members of a Forall₂ have related left members. -/
theorem forall2_mem_right {β γ : Type} {R : β → γ → Prop} :
    ∀ {l1 : List β} {l2 : List γ}, List.Forall₂ R l1 l2 →
    ∀ y ∈ l2, ∃ x ∈ l1, R x y := by
  intro l1 l2 h
  induction h with
  | nil => intro y hy; cases hy
  | @cons a b t1 t2 hab _ ih =>
    intro y hy
    rcases List.mem_cons.mp hy with h2 | h2
    · subst h2
      exact ⟨a, List.mem_cons_self _ _, hab⟩
    · obtain ⟨x, hx, hr⟩ := ih y h2
      exact ⟨x, List.mem_cons_of_mem _ hx, hr⟩

/-- Lemma: every serialized word of a pairOK pair corresponds to some
source word. -/
theorem pairOK_mem {f : SerCtx} {e : String × List NW}
    {pr : String × List SerWord} (h : pairOK f e pr) :
    ∀ sw ∈ pr.2, ∃ nw, swok f nw sw := by
  intro sw hsw
  obtain ⟨_, hlen, hcorr⟩ := h
  obtain ⟨i, hi⟩ := List.mem_iff_get?.mp hsw
  have hilt : i < e.2.length := by
    rw [← hlen]
    by_contra hge
    rw [List.get?_eq_none.mpr (Nat.le_of_not_lt hge)] at hi
    cases hi
  obtain ⟨nw, hnw⟩ : ∃ nw, e.2.get? i = some nw :=
    ⟨e.2.get ⟨i, hilt⟩, List.get?_eq_get hilt⟩
  obtain ⟨sw2, hsw2, hok⟩ := hcorr i nw hnw
  rw [hi] at hsw2
  have : sw = sw2 := by injection hsw2
  subst this
  exact ⟨nw, hok⟩

/-- Lemma: a swok-related serialized sequence reference reads the final
seqs table in bounds. -/
theorem swok_seq {f : SerCtx} {nw : NW} {i : Nat}
    (h : swok f nw (.verbSeq i)) : ∃ t, f.seqs.get? i = some t := by
  unfold swok at h
  cases hw : nw.word <;> rw [hw] at h <;> simp_all

/-- Lemma: in a well-formed dictionary every interned sequence name is a
definition key. -/
theorem serialize_seqs_sub (d : Dict) (hwf : wfDictB d = true) :
    ∀ x ∈ (serFold serSrw d.data ([], ⟨[], []⟩)).2.seqs,
      x ∈ keyList d.data := by
  intro x hx
  obtain ⟨_, _, hseqs, _, _, _⟩ := serFold_spec d.data [] ⟨[], []⟩
  rcases hseqs x hx with h | h
  · obtain ⟨p, hp, hsrc⟩ := h
    rcases hsrc with h2 | h2
    · subst h2
      exact List.mem_map_of_mem Prod.fst hp
    · obtain ⟨nw, hnw, t, i, hw, ht⟩ := h2
      subst ht
      have hwfw := wfDictB_elim hwf p hp nw hnw
      obtain ⟨_, hfind⟩ := wfWordB_seq hwfw hw
      obtain ⟨v, hv⟩ := Option.isSome_iff_exists.mp hfind
      exact aFind_mem_keys _ _ _ hv
  · cases h

/-- Lemma: serialization of a well-formed dictionary succeeds, producing
the interned name list as data_map and one serialized definition per
interned name. -/
theorem serializeD_success (d : Dict) (hwf : wfDictB d = true) :
    ∃ data, serializeD d =
      some ⟨data, some (serFold serSrw d.data ([], ⟨[], []⟩)).2.seqs,
            (serFold serSrw d.data ([], ⟨[], []⟩)).2.bis⟩ ∧
      optMapM (aFind (serFold serSrw d.data ([], ⟨[], []⟩)).1)
        (serFold serSrw d.data ([], ⟨[], []⟩)).2.seqs = some data := by
  obtain ⟨_, ⟨pairs, hout, hpairs⟩, _, _, _, _⟩ :=
    serFold_spec d.data [] ⟨[], []⟩
  have hkeys : pairs.map Prod.fst = d.data.map Prod.fst := forall2_keys hpairs
  have hsome : ∀ x ∈ (serFold serSrw d.data ([], ⟨[], []⟩)).2.seqs,
      (aFind (serFold serSrw d.data ([], ⟨[], []⟩)).1 x).isSome := by
    intro x hx
    have hxk := serialize_seqs_sub d hwf x hx
    rw [hout]
    simp only [List.nil_append]
    apply aFind_isSome_of_mem
    rw [hkeys]
    exact hxk
  obtain ⟨data, hdata⟩ := optMapM_isSome _ _ hsome
  refine ⟨data, ?_, hdata⟩
  have hu : serializeD d =
      match optMapM (aFind (serFold serSrw d.data ([], ⟨[], []⟩)).1)
          (serFold serSrw d.data ([], ⟨[], []⟩)).2.seqs with
      | none => none
      | some data => some ⟨data,
          some (serFold serSrw d.data ([], ⟨[], []⟩)).2.seqs,
          (serFold serSrw d.data ([], ⟨[], []⟩)).2.bis⟩ := rfl
  rw [hu, hdata]

/-- C8 counterexample: Dict::serialize does not intern a definition name
before its members; on the dictionary where definition a calls
definition b, the emitted data_map is [b, a] (the member reference b is
interned while walking a, before a itself), whereas interning each name
first would emit [a, b].  The two orders produce different artifacts. -/
theorem intern_order_counterexample :
    serializeD dictC8 ≠ serializeSpecOrd dictC8 ∧
    (serializeD dictC8).bind SerDict.data_map = some ["b", "a"] ∧
    (serializeSpecOrd dictC8).bind SerDict.data_map = some ["a", "b"] := by
  refine ⟨by decide, by decide, by decide⟩

/-- C8 amended: each definition name is interned after its members are
emitted (ser_srw interns the name at the end), yet self and forward
references remain well-defined: serializing a well-formed dictionary
succeeds, every definition name receives an index in data_map, and every
serialized sequence reference is a valid index into data. -/
theorem serialize_references_well_defined (d : Dict)
    (hwf : wfDictB d = true) :
    ∃ sd, serializeD d = some sd ∧
      (∀ n ∈ keyList d.data, n ∈ sd.data_map.getD []) ∧
      (∀ sws ∈ sd.data, ∀ sw ∈ sws, ∀ i, sw = SerWord.verbSeq i →
        i < sd.data.length) := by
  obtain ⟨data, hser, hdata⟩ := serializeD_success d hwf
  obtain ⟨_, ⟨pairs, hout, hpairs⟩, _, _, _, hnames⟩ :=
    serFold_spec d.data [] ⟨[], []⟩
  refine ⟨_, hser, ?_, ?_⟩
  · intro n hn
    simp only [Option.getD_some]
    obtain ⟨p, hp, hp1⟩ := List.mem_map.mp hn
    subst hp1
    exact hnames p hp
  · obtain ⟨hlen, hcorr⟩ := optMapM_spec _ _ _ hdata
    intro sws hsws sw hsw i hswi
    subst hswi
    obtain ⟨j, hj⟩ := List.mem_iff_get?.mp hsws
    have hjlt : j < (serFold serSrw d.data ([], ⟨[], []⟩)).2.seqs.length := by
      rw [← hlen]
      by_contra hge
      rw [List.get?_eq_none.mpr (Nat.le_of_not_lt hge)] at hj
      cases hj
    obtain ⟨x, hx⟩ : ∃ x,
        (serFold serSrw d.data ([], ⟨[], []⟩)).2.seqs.get? j = some x :=
      ⟨_, List.get?_eq_get hjlt⟩
    obtain ⟨y, hy, hyj⟩ := hcorr j x hx
    rw [hj] at hyj
    have hysws : sws = y := by injection hyj
    rw [← hysws] at hy
    have hmem : (x, sws) ∈ pairs := by
      have := aFind_some_mem _ _ _ hy
      rw [hout] at this
      simpa using this
    obtain ⟨e, he, hok⟩ := forall2_mem_right hpairs (x, sws) hmem
    obtain ⟨nw, hnw⟩ := pairOK_mem hok (SerWord.verbSeq i) hsw
    obtain ⟨t, ht⟩ := swok_seq hnw
    have hilt : i < (serFold serSrw d.data ([], ⟨[], []⟩)).2.seqs.length := by
      by_contra hge
      rw [List.get?_eq_none.mpr (Nat.le_of_not_lt hge)] at ht
      cases ht
    show i < data.length
    rw [hlen]
    exact hilt

/-- Witness for serialize_references_well_defined at the concrete
dictionary dictC8. -/
theorem serialize_references_well_defined_witness :
    ∃ sd, serializeD dictC8 = some sd ∧
      (∀ n ∈ keyList dictC8.data, n ∈ sd.data_map.getD []) ∧
      (∀ sws ∈ sd.data, ∀ sw ∈ sws, ∀ i, sw = SerWord.verbSeq i →
        i < sd.data.length) :=
  serialize_references_well_defined dictC8 (by decide)

/-- Lemma: builtins never inspect the flow stack, so they commute with
sequence-token renaming. -/
theorem biRun_map {α β : Type} (m : α → β) (b : BI) (s : RState α) :
    biRun b (mapState m s) = Except.map (mapState m) (biRun b s) := by
  obtain ⟨⟨dd, de⟩, ⟨rd, re⟩, f, o⟩ := s
  cases b
  case emit => cases dd <;> simp [Except.map, biRun, bi_emit, mapState, StdVecStack.pop]
  case dot => cases dd <;> simp [Except.map, biRun, bi_pop, mapState, StdVecStack.pop]
  case cr => simp [Except.map, biRun, bi_cr, mapState]
  case rpush =>
    cases dd <;>
      simp [Except.map, biRun, bi_retstk_push, mapState, StdVecStack.pop, StdVecStack.push]
  case rpop =>
    cases rd <;>
      simp [Except.map, biRun, bi_retstk_pop, mapState, StdVecStack.pop, StdVecStack.push]
  case eq =>
    cases dd with
    | nil => simp [Except.map, biRun, bi_eq, mapState, StdVecStack.pop]
    | cons v1 dd2 =>
      cases dd2 <;>
        simp [Except.map, biRun, bi_eq, mapState, StdVecStack.pop, StdVecStack.push]
  case lt =>
    cases dd with
    | nil => simp [Except.map, biRun, bi_lt, mapState, StdVecStack.pop]
    | cons v1 dd2 =>
      cases dd2 <;>
        simp [Except.map, biRun, bi_lt, mapState, StdVecStack.pop, StdVecStack.push]
  case gt =>
    cases dd with
    | nil => simp [Except.map, biRun, bi_gt, mapState, StdVecStack.pop]
    | cons v1 dd2 =>
      cases dd2 <;>
        simp [Except.map, biRun, bi_gt, mapState, StdVecStack.pop, StdVecStack.push]
  case dup =>
    cases dd <;>
      simp [Except.map, biRun, bi_dup, mapState, StdVecStack.lastE, StdVecStack.push]
  case add =>
    cases dd with
    | nil => simp [Except.map, biRun, bi_add, mapState, StdVecStack.pop]
    | cons v1 dd2 =>
      cases dd2 <;>
        simp [Except.map, biRun, bi_add, mapState, StdVecStack.pop, StdVecStack.push]
  case privLoop =>
    cases rd with
    | nil => simp [Except.map, biRun, bi_priv_loop, mapState, StdVecStack.pop]
    | cons lmt rd2 =>
      cases rd2 with
      | nil => simp [Except.map, biRun, bi_priv_loop, mapState, StdVecStack.pop]
      | cons idx rd3 =>
        cases hca : checkedAdd1 idx with
        | none =>
          simp [Except.map, biRun, bi_priv_loop, mapState, StdVecStack.pop, hca]
        | some idx2 =>
          by_cases hlim : idx2 = lmt <;>
            simp [Except.map, biRun, bi_priv_loop, mapState, StdVecStack.pop, hca, hlim,
              StdVecStack.push]

/-- Lemma: jump application commutes with sequence-token renaming. -/
theorem applyJump_map {α β : Type} (m : α → β) (off : Int) (s : RState α) :
    applyJump off (mapState m s) =
      (mapIRes m (applyJump off s).1, mapState m (applyJump off s).2) := by
  obtain ⟨d, r, f, o⟩ := s
  cases f with
  | nil => simp [applyJump, mapState, mapIRes]
  | cons w rest =>
    cases w with
    | verbSeq t i =>
      by_cases hneg : off < 0
      · by_cases hle : off.natAbs ≤ i <;>
          simp [applyJump, mapState, mapIRes, mapWord, hneg, hle]
      · by_cases hz : off.toNat = 0 <;>
          simp [applyJump, mapState, mapIRes, mapWord, hneg, hz]
    | literalVal v => simp [applyJump, mapState, mapIRes, mapWord]
    | verb b => simp [applyJump, mapState, mapIRes, mapWord]
    | uncondRelativeJump o2 => simp [applyJump, mapState, mapIRes, mapWord]
    | condRelativeJump o2 j2 => simp [applyJump, mapState, mapIRes, mapWord]

/-- Lemma: one inner interpreter step commutes with sequence-token
renaming. -/
theorem innerStep_map {α β : Type} (m : α → β) (s : RState α) :
    innerStep (mapState m s) =
      (mapIRes m (innerStep s).1, mapState m (innerStep s).2) := by
  obtain ⟨⟨dd, de⟩, r, f, o⟩ := s
  cases f with
  | nil => simp [innerStep, mapState, mapIRes]
  | cons w rest =>
    cases w with
    | literalVal v =>
      simp [innerStep, mapState, mapIRes, mapWord, StdVecStack.push]
    | verb b => simp [innerStep, mapState, mapIRes, mapWord]
    | verbSeq t i => simp [innerStep, mapState, mapIRes, mapWord]
    | uncondRelativeJump off =>
      have := applyJump_map m off
        ⟨⟨dd, de⟩, r, rest, o⟩
      simp only [innerStep, mapState, List.map_cons, mapWord] at *
      exact this
    | condRelativeJump off j =>
      cases dd with
      | nil => simp [innerStep, mapState, mapIRes, mapWord, StdVecStack.pop]
      | cons v dd2 =>
        by_cases hj : Bool.xor (decide (v = 0)) j
        · have := applyJump_map m off ⟨⟨dd2, de⟩, r, rest, o⟩
          simp only [innerStep, mapState, List.map_cons, mapWord,
            StdVecStack.pop, hj, if_true] at *
          exact this
        · simp [innerStep, mapState, mapIRes, mapWord, StdVecStack.pop, hj]

/-- Lemma: error recovery commutes with sequence-token renaming. -/
theorem clearState_map {α β : Type} (m : α → β) (s : RState α) :
    clearState (mapState m s) = mapState m (clearState s) := by
  simp [clearState, mapState, popAllF_eq_nil]

/-- Lemma: the host dispatch loop commutes with sequence-token renaming
whenever the two lookup functions agree modulo the renaming.  This is
the functorial core of the round-trip argument: the std (name-keyed) and
nostd (index-keyed) runtimes execute in lock-step. -/
theorem runLoop_map {α β : Type} (m : α → β)
    (look1 : α → Nat → Option (RuntimeWord α))
    (look2 : β → Nat → Option (RuntimeWord β))
    (hcomm : ∀ t i, look2 (m t) i = (look1 t i).map (mapWord m)) :
    ∀ (n : Nat) (s : RState α),
    runLoop look2 n (mapState m s) =
      ((runLoop look1 n s).1, mapState m (runLoop look1 n s).2) := by
  intro n
  induction n with
  | zero => intro s; simp [runLoop]
  | succ k ih =>
    intro s
    have hstep := innerStep_map m s
    rcases hi : innerStep s with ⟨ir, s1⟩
    rw [hi] at hstep
    cases ir with
    | cont =>
      simp only [runLoop, hstep, hi, mapIRes]
      exact ih s1
    | done => simp only [runLoop, hstep, hi, mapIRes]
    | single b =>
      simp only [runLoop, hstep, hi, mapIRes]
      have hb := biRun_map m b s1
      cases hbr : biRun b s1 with
      | ok s2 =>
        rw [hbr] at hb
        simp only [Except.map] at hb
        rw [hb]
        exact ih s2
      | error e =>
        rw [hbr] at hb
        simp only [Except.map] at hb
        rw [hb]
    | ref t i =>
      simp only [runLoop, hstep, hi, mapIRes]
      rw [hcomm t i]
      cases hl : look1 t i with
      | none =>
        simp only [Option.map_none']
        cases hf : s1.flow_stk with
        | nil => simp [mapState, hf]
        | cons w rest =>
          have hrec := ih { s1 with flow_stk := rest }
          simp only [mapState, hf, List.map_cons]
          simpa [mapState] using hrec
      | some w =>
        simp only [Option.map_some']
        cases w with
        | verbSeq t2 j =>
          by_cases hz : j = 0
          · subst hz
            have hrec := ih { s1 with flow_stk := .verbSeq t2 0 :: s1.flow_stk }
            simp only [mapWord, if_true]
            simpa [mapState] using hrec
          · simp [mapWord, hz]
        | literalVal v =>
          have hrec := ih { s1 with flow_stk := .literalVal v :: s1.flow_stk }
          simp only [mapWord]
          simpa [mapState] using hrec
        | verb b =>
          have hrec := ih { s1 with flow_stk := .verb b :: s1.flow_stk }
          simp only [mapWord]
          simpa [mapState] using hrec
        | uncondRelativeJump o2 =>
          have hrec := ih
            { s1 with flow_stk := .uncondRelativeJump o2 :: s1.flow_stk }
          simp only [mapWord]
          simpa [mapState] using hrec
        | condRelativeJump o2 j2 =>
          have hrec := ih
            { s1 with flow_stk := .condRelativeJump o2 j2 :: s1.flow_stk }
          simp only [mapWord]
          simpa [mapState] using hrec
    | err e =>
      simp only [runLoop, hstep, hi, mapIRes]
      rw [clearState_map]
    | pan => simp only [runLoop, hstep, hi, mapIRes]

/-- Lemma: optMapM computes a map when every element corresponds
pointwise to an element of a second list. -/
theorem optMapM_eq_of_corr {β δ γ : Type} (f : β → Option γ) (g : δ → γ) :
    ∀ (l : List β) (l2 : List δ), l.length = l2.length →
    (∀ i x y, l.get? i = some x → l2.get? i = some y → f x = some (g y)) →
    optMapM f l = some (l2.map g) := by
  intro l
  induction l with
  | nil =>
    intro l2 hlen _
    cases l2 with
    | nil => rfl
    | cons y ys => cases hlen
  | cons x xs ih =>
    intro l2 hlen hcorr
    cases l2 with
    | nil => cases hlen
    | cons y ys =>
      have hx := hcorr 0 x y rfl rfl
      have hrest := ih ys (by simpa using hlen)
        (fun i a b ha hb => hcorr (i + 1) a b ha hb)
      simp [optMapM, hx, hrest]

/-- Lemma: decoding a serialized word through the builtin lookup table
recovers the original word with its sequence token replaced by its
intern index, for well-formed (cursor zero) coherent source words. -/
theorem convWord_swok {Φ : SerCtx} {lut : List BI}
    (hlutcorr : ∀ i x, Φ.bis.get? i = some x →
      ∃ y, aFind nostdBuiltins x = some y ∧ lut.get? i = some y)
    (hndseqs : Φ.seqs.Nodup)
    (nw : NW) (sw : SerWord) (hok : swok Φ nw sw)
    (hidx : ∀ t i, nw.word = .verbSeq t i → i = 0)
    (hcohw : cohWordB nw = true) :
    convWord lut sw =
      some (mapWord (fun t => (posOf Φ.seqs t).getD Φ.seqs.length) nw.word) := by
  unfold swok at hok
  cases hw : nw.word <;> cases hsw : sw <;> rw [hw, hsw] at hok <;>
    (try simp only [] at hok) <;> try exact hok.elim
  case literalVal.literalVal v v2 =>
    subst hok
    simp [convWord, mapWord]
  case verb.verb b i =>
    obtain ⟨y, hy, hli⟩ := hlutcorr i nw.name hok
    have hcoh := cohWordB_verb hcohw hw
    rw [hcoh] at hy
    have hyb : b = y := by injection hy
    subst hyb
    rw [List.get?_eq_getElem?] at hli
    simp [convWord, hli, mapWord]
  case verbSeq.verbSeq t j i =>
    have hj : j = 0 := hidx t j hw
    subst hj
    have hpos : posOf Φ.seqs t = some i := nodup_get_posOf _ hndseqs i t hok
    simp [convWord, mapWord, hpos]
  case uncondRelativeJump.uncondRelativeJump o o2 =>
    subst hok
    simp [convWord, mapWord]
  case condRelativeJump.condRelativeJump o j o2 j2 =>
    obtain ⟨h1, h2⟩ := hok
    subst h1
    subst h2
    simp [convWord, mapWord]

/-- Lemma: deserializing the artifact of a well-formed, coherent
dictionary succeeds and yields exactly the decoded sequence table of
decodeSeqs. -/
theorem fromSerDict_decodes (d : Dict)
    (hwf : wfDictB d = true) (hcoh : cohDictB d = true) :
    ∃ data, serializeD d = some ⟨data,
        some (serFold serSrw d.data ([], ⟨[], []⟩)).2.seqs,
        (serFold serSrw d.data ([], ⟨[], []⟩)).2.bis⟩ ∧
      fromSerDict ⟨data,
        some (serFold serSrw d.data ([], ⟨[], []⟩)).2.seqs,
        (serFold serSrw d.data ([], ⟨[], []⟩)).2.bis⟩ =
        some (decodeSeqs d.data
          (serFold serSrw d.data ([], ⟨[], []⟩)).2.seqs) := by
  obtain ⟨data, hser, hdata⟩ := serializeD_success d hwf
  obtain ⟨_, ⟨pairs, hout, hpairs⟩, hseqsrc, hbissrc, hndf, hnames⟩ :=
    serFold_spec d.data [] ⟨[], []⟩
  have hout2 : (serFold serSrw d.data ([], ⟨[], []⟩)).1 = pairs := by
    simpa using hout
  have hndseqs : (serFold serSrw d.data ([], ⟨[], []⟩)).2.seqs.Nodup :=
    hndf List.nodup_nil
  have hsub := serialize_seqs_sub d hwf
  have hbisok : ∀ x ∈ (serFold serSrw d.data ([], ⟨[], []⟩)).2.bis,
      (aFind nostdBuiltins x).isSome := by
    intro x hx
    rcases hbissrc x hx with h | h
    · obtain ⟨p, hp, nw, hnw, b, hword, hxn⟩ := h
      subst hxn
      have hc := cohWordB_verb (cohDictB_elim hcoh p hp nw hnw) hword
      simp [hc]
    · cases h
  obtain ⟨lut, hlut⟩ := optMapM_isSome _ _ hbisok
  obtain ⟨hlutlen, hlutcorr⟩ := optMapM_spec _ _ _ hlut
  obtain ⟨hdlen, hdcorr⟩ := optMapM_spec _ _ _ hdata
  have hns : optMapM (fun seq => optMapM (convWord lut) seq) data =
      some (decodeSeqs d.data
        (serFold serSrw d.data ([], ⟨[], []⟩)).2.seqs) := by
    unfold decodeSeqs
    apply optMapM_eq_of_corr _ _ data _ hdlen
    intro j sws nm hjd hjs
    obtain ⟨y, hy, hjy⟩ := hdcorr j nm hjs
    rw [hjd] at hjy
    have hysw : sws = y := by injection hjy
    rw [← hysw] at hy
    have hnmk : nm ∈ keyList d.data := hsub nm (List.get?_mem hjs)
    obtain ⟨ws, hws⟩ := Option.isSome_iff_exists.mp
      (aFind_isSome_of_mem _ _ hnmk)
    obtain ⟨sws2, hsws2, hok⟩ := forall2_aFind hpairs nm ws hws
    rw [hout2] at hy
    rw [hsws2] at hy
    have hsw2 : sws2 = sws := by injection hy
    rw [hsw2] at hok
    rw [hws]
    simp only [Option.getD_some]
    obtain ⟨_, hlen, hcorr⟩ := hok
    apply optMapM_eq_of_corr _ _ sws ws hlen
    intro i sw nw hisw hinw
    obtain ⟨sw2, hsw2, hokw⟩ := hcorr i nw hinw
    rw [hisw] at hsw2
    have hssw : sw = sw2 := by injection hsw2
    subst hssw
    have hpmem : (nm, ws) ∈ d.data := aFind_some_mem _ _ _ hws
    have hnwmem : nw ∈ ws := List.get?_mem hinw
    have hwfw := wfDictB_elim hwf (nm, ws) hpmem nw hnwmem
    have hcohw := cohDictB_elim hcoh (nm, ws) hpmem nw hnwmem
    have hidx : ∀ t i2, nw.word = .verbSeq t i2 → i2 = 0 :=
      fun t i2 hw => (wfWordB_seq hwfw hw).1
    exact convWord_swok hlutcorr hndseqs nw sw hokw hidx hcohw
  refine ⟨data, hser, ?_⟩
  have hfu : fromSerDict ⟨data,
      some (serFold serSrw d.data ([], ⟨[], []⟩)).2.seqs,
      (serFold serSrw d.data ([], ⟨[], []⟩)).2.bis⟩ =
      match optMapM (aFind nostdBuiltins)
          (serFold serSrw d.data ([], ⟨[], []⟩)).2.bis with
      | none => none
      | some lut => optMapM (fun seq => optMapM (convWord lut) seq) data :=
    rfl
  rw [hfu, hlut]
  exact hns

/-- Lemma: the nostd index-keyed lookup over the decoded sequence table
agrees with the std name-keyed lookup modulo the intern renaming. -/
theorem look_bridge (d : Dict) (hwf : wfDictB d = true) :
    ∀ t i, lookNS (decodeSeqs d.data
        (serFold serSrw d.data ([], ⟨[], []⟩)).2.seqs)
        (serIndexL (serFold serSrw d.data ([], ⟨[], []⟩)).2.seqs t) i =
      (lookStd d.data t i).map
        (mapWord (serIndexL (serFold serSrw d.data ([], ⟨[], []⟩)).2.seqs)) := by
  obtain ⟨_, _, _, _, _, hnames⟩ := serFold_spec d.data [] ⟨[], []⟩
  have hsub := serialize_seqs_sub d hwf
  intro t i
  cases hfind : aFind d.data t with
  | some ws =>
    have htm : t ∈ (serFold serSrw d.data ([], ⟨[], []⟩)).2.seqs :=
      hnames (t, ws) (aFind_some_mem _ _ _ hfind)
    obtain ⟨j, hpos⟩ := posOf_isSome_of_mem _ _ htm
    have hgj : (serFold serSrw d.data ([], ⟨[], []⟩)).2.seqs.get? j = some t :=
      posOf_get _ _ _ hpos
    have hsi : serIndexL (serFold serSrw d.data ([], ⟨[], []⟩)).2.seqs t = j := by
      simp [serIndexL, hpos]
    rw [hsi]
    have hget : (decodeSeqs d.data
        (serFold serSrw d.data ([], ⟨[], []⟩)).2.seqs).get? j =
        some (((aFind d.data t).getD []).map
          (fun nw => mapWord
            (serIndexL (serFold serSrw d.data ([], ⟨[], []⟩)).2.seqs)
            nw.word)) := by
      unfold decodeSeqs
      rw [List.get?_map, hgj]
      rfl
    unfold lookNS
    rw [hget, hfind]
    unfold lookStd
    rw [hfind]
    simp only [Option.getD_some]
    rw [List.get?_map]
    cases ws.get? i <;> simp
  | none =>
    have htm : t ∉ (serFold serSrw d.data ([], ⟨[], []⟩)).2.seqs := by
      intro hmem
      have hk := hsub t hmem
      have hs := aFind_isSome_of_mem d.data t hk
      rw [hfind] at hs
      cases hs
    have hpos : posOf (serFold serSrw d.data ([], ⟨[], []⟩)).2.seqs t = none :=
      (posOf_eq_none_iff _ _).mpr htm
    have hsi : serIndexL (serFold serSrw d.data ([], ⟨[], []⟩)).2.seqs t =
        (serFold serSrw d.data ([], ⟨[], []⟩)).2.seqs.length := by
      simp [serIndexL, hpos]
    have hlen2 : (decodeSeqs d.data
        (serFold serSrw d.data ([], ⟨[], []⟩)).2.seqs).length =
        (serFold serSrw d.data ([], ⟨[], []⟩)).2.seqs.length := by
      simp [decodeSeqs]
    unfold lookNS
    rw [hsi]
    rw [List.get?_eq_none.mpr (by rw [hlen2])]
    unfold lookStd
    rw [hfind]
    simp

/-- C1 counterexample: the round-trip fails on a well-formed dictionary
containing a do loop.  Compiling the definition test as
0 0 do 42 emit loop serializes fine, but its bis table names the
internal primitive PRIV_LOOP, which nostd_builtins does not provide, so
NoStdContext::from_ser_dict panics (unwrap of a failed registry lookup)
and no runtime is produced at all. -/
theorem roundtrip_counterexample :
    (ctxC1.bind (fun c => serializeD c.dict)).isSome = true ∧
    ((ctxC1.bind (fun c => serializeD c.dict)).map
      (fun sd => decide ("PRIV_LOOP" ∈ sd.bis))) = some true ∧
    ((ctxC1.bind (fun c => serializeD c.dict)).bind fromSerDict) = none := by
  exact ⟨by decide, by decide, by decide⟩

/-- C1 amended: for every well-formed dictionary whose Verb words are
all coherently named in the loader registry (which excludes the
PRIV_LOOP words produced for do loops), serialization succeeds,
deserialization into a fresh index-keyed runtime succeeds, and running
the deserialized dictionary from any entry point with the same initial
data stack yields the same step outcome, byte-identical output-sink
contents, and identical data and return stacks (capacities of the
embedded runtime idealized as unbounded). -/
theorem roundtrip_preserves_output (d : Dict)
    (hwf : wfDictB d = true) (hcoh : cohDictB d = true) :
    ∃ sd seqs, serializeD d = some sd ∧ fromSerDict sd = some seqs ∧
      ∀ (entry : String) (ds : List Int) (fuel : Nat),
        (runLoop (lookNS seqs) fuel
            (initState [.verbSeq (serIndex sd entry) 0] ds)).1 =
          (runLoop (lookStd d.data) fuel
            (initState [.verbSeq entry 0] ds)).1 ∧
        (runLoop (lookNS seqs) fuel
            (initState [.verbSeq (serIndex sd entry) 0] ds)).2.cur_output =
          (runLoop (lookStd d.data) fuel
            (initState [.verbSeq entry 0] ds)).2.cur_output ∧
        (runLoop (lookNS seqs) fuel
            (initState [.verbSeq (serIndex sd entry) 0] ds)).2.data_stk =
          (runLoop (lookStd d.data) fuel
            (initState [.verbSeq entry 0] ds)).2.data_stk ∧
        (runLoop (lookNS seqs) fuel
            (initState [.verbSeq (serIndex sd entry) 0] ds)).2.ret_stk =
          (runLoop (lookStd d.data) fuel
            (initState [.verbSeq entry 0] ds)).2.ret_stk := by
  obtain ⟨data, hser, hfrom⟩ := fromSerDict_decodes d hwf hcoh
  refine ⟨_, _, hser, hfrom, ?_⟩
  intro entry ds fuel
  have hcomm := look_bridge d hwf
  have hrm := runLoop_map
    (serIndexL (serFold serSrw d.data ([], ⟨[], []⟩)).2.seqs)
    (lookStd d.data)
    (lookNS (decodeSeqs d.data (serFold serSrw d.data ([], ⟨[], []⟩)).2.seqs))
    hcomm fuel (initState [.verbSeq entry 0] ds)
  have hinit : mapState
      (serIndexL (serFold serSrw d.data ([], ⟨[], []⟩)).2.seqs)
      (initState [.verbSeq entry 0] ds) =
      initState (α := Nat)
        [.verbSeq (serIndexL (serFold serSrw d.data ([], ⟨[], []⟩)).2.seqs
          entry) 0] ds := by
    simp [mapState, initState, mapWord]
  rw [hinit] at hrm
  have h1 : serIndex ⟨data,
      some (serFold serSrw d.data ([], ⟨[], []⟩)).2.seqs,
      (serFold serSrw d.data ([], ⟨[], []⟩)).2.bis⟩ entry =
      serIndexL (serFold serSrw d.data ([], ⟨[], []⟩)).2.seqs entry := rfl
  rw [h1, hrm]
  simp [mapState]

/-- Witness for roundtrip_preserves_output at the concrete star / mstar
dictionary of the repository round-trip test. -/
theorem roundtrip_preserves_output_witness :
    let d : Dict := ⟨stdBuiltins,
      [("star", [⟨"LIT(42)", .literalVal 42⟩, ⟨"emit", .verb .emit⟩]),
       ("mstar", [⟨"CRJ", .condRelativeJump 2 false⟩,
                  ⟨"star", .verbSeq "star" 0⟩,
                  ⟨"UCRJ", .uncondRelativeJump 2⟩,
                  ⟨"star", .verbSeq "star" 0⟩,
                  ⟨"star", .verbSeq "star" 0⟩])], 0⟩
    ∃ sd seqs, serializeD d = some sd ∧ fromSerDict sd = some seqs ∧
      ∀ (entry : String) (ds : List Int) (fuel : Nat),
        (runLoop (lookNS seqs) fuel
            (initState [.verbSeq (serIndex sd entry) 0] ds)).1 =
          (runLoop (lookStd d.data) fuel
            (initState [.verbSeq entry 0] ds)).1 ∧
        (runLoop (lookNS seqs) fuel
            (initState [.verbSeq (serIndex sd entry) 0] ds)).2.cur_output =
          (runLoop (lookStd d.data) fuel
            (initState [.verbSeq entry 0] ds)).2.cur_output ∧
        (runLoop (lookNS seqs) fuel
            (initState [.verbSeq (serIndex sd entry) 0] ds)).2.data_stk =
          (runLoop (lookStd d.data) fuel
            (initState [.verbSeq entry 0] ds)).2.data_stk ∧
        (runLoop (lookNS seqs) fuel
            (initState [.verbSeq (serIndex sd entry) 0] ds)).2.ret_stk =
          (runLoop (lookStd d.data) fuel
            (initState [.verbSeq entry 0] ds)).2.ret_stk := by
  intro d
  exact roundtrip_preserves_output d (by decide) (by decide)
